import Mathlib

/-!
Pack, index and loose-object decoding of `gogits/git` (`repo_utils.go`), and the
listing of tags (`repo_tag.go`)

A shallow embedding of the byte-level decoders of the repository and theorems
about them.

Conventions of the embedding

* A byte is a `Fin 256`; a Go `[]byte` or `string` is a `List Byte`.
* Go `int`, `int64` and `uint64` values are carried as their 64-bit pattern, a
  natural number reduced modulo `2 ^ 64`; `toInt64` reads a pattern as a signed
  number.  (`int` is taken to be 64 bits wide, as the shift table of
  `readLenInPackFile`, which reaches 60, presumes.)
* A run-time panic (index out of range, nil dereference), a call of
  `log.Fatal` and the exhaustion of the recursion fuel are outcomes of their
  own, distinct from a returned Go `error`.
-/

namespace Git

/-! ## Data model -/

/-- One byte. -/
abbrev Byte := Fin 256

/-- Go strings are byte sequences. -/
abbrev GoString := List Byte

/-- The bytes of an ASCII string literal. -/
def ascii (s : String) : GoString := s.data.map (fun c => Fin.ofNat c.toNat)

/-- What a call of a Go function can end in. -/
inductive Outcome (α : Type) where
  /-- The function returned (possibly with a non-nil `error` inside `a`). -/
  | ret (a : α)
  /-- A run-time panic: index or slice bound out of range, nil dereference. -/
  | panic
  /-- The process was terminated by `log.Fatal`. -/
  | fatal
  /-- The recursion fuel of the model ran out. -/
  | outOfFuel
  deriving Repr, DecidableEq

/-- Reduction of a natural number to a 64-bit pattern. -/
def wrap64 (n : Nat) : Nat := n % 2 ^ 64

/-- Signed reading of a 64-bit pattern. -/
def toInt64 (n : Nat) : Int :=
  if n % 2 ^ 64 < 2 ^ 63 then ((n % 2 ^ 64 : Nat) : Int) else ((n % 2 ^ 64 : Nat) : Int) - 2 ^ 64

/-- The byte of `buf` at index `i` as a number (0 outside the buffer); used in statements. -/
def byteAt (buf : List Byte) (i : Nat) : Nat := (buf.getD i 0).val

/-! ## Object types, identifiers, streams -/

/-- Modelled from the spec: the declaration of `ObjectType` and of its constants is not
among the sources.  The type tag is the first header byte masked with `0x70`; the four
final kinds are the tags `0x10 .. 0x40` (commit, tree, blob, tag, in the order of the
pack format), the two delta kinds are `0x60` and `0x70`. -/
def ObjectCommit : Nat := 0x10

/-- Modelled from the spec: see `ObjectCommit`. -/
def ObjectTree : Nat := 0x20

/-- Modelled from the spec: see `ObjectCommit`. -/
def ObjectBlob : Nat := 0x30

/-- Modelled from the spec: see `ObjectCommit`. -/
def ObjectTag : Nat := 0x40

/-- The `case ObjectCommit, ObjectTree, ObjectBlob, ObjectTag:` test of `readObjectBytes`. -/
def isFinalType (ot : Nat) : Bool :=
  ot == ObjectCommit || ot == ObjectTree || ot == ObjectBlob || ot == ObjectTag

/-- The type `sha1`, a `[20]byte`. -/
abbrev sha1 := List Byte

/-- Modelled from the spec: `NewId` is not among the sources; it "reads the next 20 bytes
as an ObjectId" and fails on a slice of any other length. -/
def NewId (b : List Byte) : sha1 × Option String :=
  if b.length = 20 then (b, none) else (List.replicate 20 0, some "Length must be 20")

/-- An `io.ReadCloser`: the bytes that can be read from it, and whether reading ends in an
error (`failed = true`) rather than in `io.EOF`. -/
structure Stream where
  data : List Byte
  failed : Bool
  deriving Repr, DecidableEq

deriving instance DecidableEq for Except

/-- The reader `io.LimitReader(r, n)` of the standard library: at most `n` bytes of `r`,
then `io.EOF`; nothing at all when `n <= 0`. -/
def limitReader (r : Stream) (n : Int) : Stream :=
  { data := r.data.take n.toNat, failed := r.failed && decide (r.data.length < n.toNat) }

/-- The Go map `map[sha1]uint64`, as an association list without repeated keys. -/
abbrev OffsetMap := List (sha1 × Nat)

/-- The assignment `m[k] = v`. -/
def mapInsert (m : OffsetMap) (k : sha1) (v : Nat) : OffsetMap :=
  (k, v) :: m.filter (fun e => decide (e.1 ≠ k))

/-- The lookup `v, ok = m[k]`. -/
def mapLookup (m : OffsetMap) (k : sha1) : Option Nat :=
  (m.find? (fun e => decide (e.1 = k))).map Prod.snd

/-- The struct `idxFile`. -/
structure idxFile where
  indexpath : GoString
  packpath : GoString
  packversion : Nat
  offsetValues : OffsetMap
  deriving Repr, DecidableEq

/-- What the code calls but the sources do not contain, and the file system. -/
structure Env where
  /-- The content of the regular file at a path; `none` when it cannot be opened. -/
  fs : GoString → Option (List Byte)
  /-- `readerDecompressed(file)`, given the content of the file from its current position
  on: an error, or the decompressed stream. -/
  readerDecompressed : List Byte → Except String Stream
  /-- `readerLittleEndianBase128Number(rc)`: the number, the count of bytes read, and the
  stream that is left. -/
  readerLittleEndianBase128Number : Stream → Int × Nat × Stream
  /-- `readerApplyDelta(base, rc, resultObjectLength)`: the data and the error. -/
  readerApplyDelta : List Byte → Stream → Int → List Byte × Option String

/-- The four results `(ot, length, dataRc, err)` of `readObjectBytes` and `readObjectFile`,
and whether the file handle opened by the call is still open when it returns. -/
structure Ret where
  ot : Nat
  length : Int
  dataRc : Option Stream
  err : Option String
  fileOpen : Bool
  deriving Repr, DecidableEq

/-! ## `readLenInPackFile` -/

/-- The table `shift := [...]byte{0, 4, 11, 18, 25, 32, 39, 46, 53, 60}`. -/
def shift : List Nat := [0, 4, 11, 18, 25, 32, 39, 46, 53, 60]

/-- The loop `for buf[advance]&0x80 > 0 { advance += 1; length += int(buf[advance]&0x7F) << shift[advance] }`
followed by `advance++; return`. -/
def readLenLoop (buf : List Byte) : Nat → Nat → Nat → Outcome (Int × Nat)
  | 0, _, _ => .outOfFuel
  | fuel + 1, advance, length =>
    match buf[advance]? with
    | none => .panic
    | some b =>
      if b.val &&& 0x80 > 0 then
        match buf[advance + 1]?, shift[advance + 1]? with
        | some c, some s =>
          readLenLoop buf fuel (advance + 1) (wrap64 (length + wrap64 ((c.val &&& 0x7F) <<< s)))
        | _, _ => .panic
      else .ret (toInt64 length, advance + 1)

/-- `func readLenInPackFile(buf []byte) (length int, advance int)`.
The loop body can run at most ten times (the tenth run panics on `shift[10]`),
so eleven units of fuel never run out. -/
def readLenInPackFile (buf : List Byte) : Outcome (Int × Nat) :=
  match buf[0]? with
  | none => .panic
  | some b => readLenLoop buf 11 0 (b.val &&& 0x0F)

/-! ## `readIdxFile` -/

/-- The expression `uint32(idx[pos])<<24 + uint32(idx[pos+1])<<16 + uint32(idx[pos+2])<<8 + uint32(idx[pos+3])`;
`none` is the panic of an index out of range. -/
def be32 (idx : List Byte) (pos : Nat) : Option Nat :=
  match idx[pos]?, idx[pos + 1]?, idx[pos + 2]?, idx[pos + 3]? with
  | some a, some b, some c, some d =>
    some (((a.val <<< 24) + (b.val <<< 16) + (c.val <<< 8) + d.val) % 2 ^ 32)
  | _, _, _, _ => none

/-- The expression `uint64(idx[pos])<<070 + uint64(idx[pos+1])<<060 + ... + uint64(idx[pos+7])`
(octal shift counts 56, 48, 40, 32, 24, 16, 8); `none` is the panic of an index out of range. -/
def be64 (idx : List Byte) (pos : Nat) : Option Nat :=
  match idx[pos]?, idx[pos + 1]?, idx[pos + 2]?, idx[pos + 3]?,
      idx[pos + 4]?, idx[pos + 5]?, idx[pos + 6]?, idx[pos + 7]? with
  | some a, some b, some c, some d, some e, some f, some g, some h =>
    some (((a.val <<< 56) + (b.val <<< 48) + (c.val <<< 40) + (d.val <<< 32)
      + (e.val <<< 24) + (f.val <<< 16) + (g.val <<< 8) + h.val) % 2 ^ 64)
  | _, _, _, _, _, _, _, _ => none

/-- The loop `for i := 0; i < 256; i++ { fanout[i] = ...; pos += 4 }`, with the count of
runs left, the position and the entries read so far; the result is the table and the
position after it. -/
def fanoutLoop (idx : List Byte) : Nat → Nat → List Nat → Option (List Nat × Nat)
  | 0, pos, fanout => some (fanout, pos)
  | n + 1, pos, fanout =>
    match be32 idx pos with
    | none => none
    | some v => fanoutLoop idx n (pos + 4) (fanout ++ [v])

/-- The loop `for j := 0; j < 20; j++ { ids[i][j] = idx[pos+j] }`, for a count of bytes. -/
def readBytes (idx : List Byte) : Nat → Nat → Option (List Byte)
  | _, 0 => some []
  | pos, n + 1 =>
    match idx[pos]? with
    | none => none
    | some b =>
      match readBytes idx (pos + 1) n with
      | none => none
      | some bs => some (b :: bs)

/-- The loop `for i := 0; i < numObjects; i++ { ...; pos = pos + 20 }` that reads the
identifiers. -/
def idsLoop (idx : List Byte) : Nat → Nat → List sha1 → Option (List sha1 × Nat)
  | 0, pos, ids => some (ids, pos)
  | n + 1, pos, ids =>
    match readBytes idx pos 20 with
    | none => none
    | some id => idsLoop idx n (pos + 20) (ids ++ [id])

/-- The loop `for i := 0; i < excessLen/8; i++ { offsetValues8[i] = ...; pos = pos + 8 }`. -/
def offsetValues8Loop (idx : List Byte) : Nat → Nat → List Nat → Option (List Nat)
  | 0, _, offsetValues8 => some offsetValues8
  | n + 1, pos, offsetValues8 =>
    match be64 idx pos with
    | none => none
    | some v => offsetValues8Loop idx n (pos + 8) (offsetValues8 ++ [v])

/-- The loop `for i := 0; i < numObjects; i++ { offset := ...; ...; pos = pos + 4 }` that
fills `ifile.offsetValues`, with the count of runs left, `i`, `pos` and the map so far. -/
def offsetsLoop (idx : List Byte) (ids : List sha1) (offsetValues8 : List Nat) :
    Nat → Nat → Nat → OffsetMap → Option OffsetMap
  | 0, _, _, m => some m
  | n + 1, i, pos, m =>
    match be32 idx pos with
    | none => none
    | some offset =>
      match ids[i]? with
      | none => none
      | some id =>
        if offset &&& 0x80000000 = 0x80000000 then
          match offsetValues8[offset &&& 0x7FFFFFFF]? with
          | none => none
          | some v => offsetsLoop idx ids offsetValues8 n (i + 1) (pos + 4) (mapInsert m id v)
        else
          offsetsLoop idx ids offsetValues8 n (i + 1) (pos + 4)
            (mapInsert m id (offset &&& 0x7FFFFFFF))

/-- The pack path `path[0:len(path)-3] + "pack"`; `none` is the panic of the slice
expression on a path shorter than three bytes. -/
def packPath (path : GoString) : Option GoString :=
  if 3 ≤ path.length then some (path.take (path.length - 3) ++ ascii "pack") else none

/-- The eight bytes of `packVersion := make([]byte, 8)` after `fi.Read(packVersion)` on a
pack file that is not empty: its first bytes, at most eight, then zeros. -/
def packVersionBuf (pack : List Byte) : List Byte :=
  pack.take 8 ++ List.replicate (8 - (pack.take 8).length) 0

/-- The end of `readIdxFile`: the pack file is opened, eight bytes are read into
`packVersion`, and the magic is checked. -/
def readPackHeader (env : Env) (path packpath : GoString) (offsetValues : OffsetMap) :
    Outcome (Except String idxFile) :=
  match env.fs packpath with
  | none => .ret (.error "open")
  | some pack =>
    if pack = [] then .ret (.error "EOF")
    else if (ascii "PACK").isPrefixOf (packVersionBuf pack) then
      match be32 (packVersionBuf pack) 4 with
      | none => .panic
      | some packversion => .ret (.ok ⟨path, packpath, packversion, offsetValues⟩)
    else .ret (.error "Pack file does not start with 'PACK'")

/-- `func readIdxFile(path string) (*idxFile, error)`: a panic, or the returned pair, which
is an error with a nil index or an index with a nil error. -/
def readIdxFile (env : Env) (path : GoString) : Outcome (Except String idxFile) :=
  match packPath path with
  | none => .panic
  | some packpath =>
    match env.fs path with
    | none => .ret (.error "open")
    | some idx =>
      if ¬ (([255, 0x74, 0x4F, 0x63] : List Byte).isPrefixOf idx) then
        .ret (.error "Not version 2 index file")
      else
        match fanoutLoop idx 256 8 [] with
        | none => .panic
        | some (fanout, pos) =>
          match idsLoop idx (fanout.getD 255 0) pos [] with
          | none => .panic
          | some (ids, pos) =>
            match (if ((idx.length : Int) - 258 * 4 - 28 * (fanout.getD 255 0 : Nat) - 40) > 0 then
                offsetValues8Loop idx
                  (((idx.length : Int) - 258 * 4 - 28 * (fanout.getD 255 0 : Nat) - 40) / 8).toNat
                  (pos + 8 * fanout.getD 255 0) []
              else some []) with
            | none => .panic
            | some offsetValues8 =>
              match offsetsLoop idx ids offsetValues8 (fanout.getD 255 0) 0
                  (258 * 4 + 24 * fanout.getD 255 0) [] with
              | none => .panic
              | some offsetValues => readPackHeader env path packpath offsetValues

/-- The big-endian 32-bit value of the four bytes of `idx` at `pos`. -/
def be32At (idx : List Byte) (pos : Nat) : Nat :=
  byteAt idx pos * 2 ^ 24 + byteAt idx (pos + 1) * 2 ^ 16 + byteAt idx (pos + 2) * 2 ^ 8
    + byteAt idx (pos + 3)

/-- The big-endian 64-bit value of the eight bytes of `idx` at `pos`. -/
def be64At (idx : List Byte) (pos : Nat) : Nat :=
  byteAt idx pos * 2 ^ 56 + byteAt idx (pos + 1) * 2 ^ 48 + byteAt idx (pos + 2) * 2 ^ 40
    + byteAt idx (pos + 3) * 2 ^ 32 + byteAt idx (pos + 4) * 2 ^ 24 + byteAt idx (pos + 5) * 2 ^ 16
    + byteAt idx (pos + 6) * 2 ^ 8 + byteAt idx (pos + 7)

/-- The object count `N` of an index: the big-endian value of its 256th fan-out entry,
the bytes 1028 .. 1031. -/
def numObjectsOf (idx : List Byte) : Nat := be32At idx 1028

/-- The `i`-th identifier of an index: the 20 bytes at `1032 + 20 * i`. -/
def idAt (idx : List Byte) (i : Nat) : sha1 := (idx.drop (1032 + 20 * i)).take 20

/-- The `i`-th 4-byte offset entry of an index: the big-endian value at
`1032 + 24 * N + 4 * i`. -/
def offsetEntry (idx : List Byte) (i : Nat) : Nat :=
  be32At idx (1032 + 24 * numObjectsOf idx + 4 * i)

/-- The count of entries of the secondary table that `readIdxFile` reads:
`excessLen / 8` when `excessLen = len(idx) - 258*4 - 28*N - 40` is positive, else none. -/
def numOffsets8 (idx : List Byte) : Nat :=
  (((idx.length : Int) - 258 * 4 - 28 * (numObjectsOf idx : Nat) - 40) / 8).toNat

/-- The value that one run of the last loop of `readIdxFile` stores for the entry at
`pos0 + 4 * j`, given the secondary table read before. -/
def storedOffset (idx : List Byte) (offsetValues8 : List Nat) (pos0 j : Nat) : Nat :=
  if be32At idx (pos0 + 4 * j) &&& 0x80000000 = 0x80000000 then
    offsetValues8.getD (be32At idx (pos0 + 4 * j) &&& 0x7FFFFFFF) 0
  else be32At idx (pos0 + 4 * j) &&& 0x7FFFFFFF

/-- The offset of the `i`-th object as the claim words it: the low 31 bits of the entry
`e_i` when its high bit is clear, else the big-endian 64-bit value at
`1032 + 28 * N + 8 * (e_i & 0x7FFFFFFF)`. -/
def resolvedOffset (idx : List Byte) (i : Nat) : Nat :=
  if offsetEntry idx i &&& 0x80000000 = 0x80000000 then
    be64At idx (1032 + 28 * numObjectsOf idx + 8 * (offsetEntry idx i &&& 0x7FFFFFFF))
  else offsetEntry idx i &&& 0x7FFFFFFF

/-- The map that pairs the identifiers of an index, in file order, with their offsets. -/
def idxOffsetMap (idx : List Byte) : OffsetMap :=
  (List.range' 0 (numObjectsOf idx)).foldl
    (fun m j => mapInsert m (idAt idx j) (resolvedOffset idx j)) []

/-- The contribution of the bytes `a + 1 .. a + n` to the length. -/
def lenTail (buf : List Byte) (a n : Nat) : Nat :=
  ∑ j in Finset.range n, (byteAt buf (a + 1 + j) &&& 0x7F) * 2 ^ (4 + 7 * (a + j))

/-! ## `readObjectBytes` -/

/-- The buffer after `buf := make([]byte, 1024); n, err := file.Read(buf)` on a regular
file positioned at `offsetInt`: the next bytes of the file, at most 1024, then zeros. -/
def readBuf (file : List Byte) (offsetInt : Nat) : List Byte :=
  (file.drop offsetInt).take 1024
    ++ List.replicate (1024 - ((file.drop offsetInt).take 1024).length) 0

/-- The loop `for buf[pos]&0x80 > 0 { pos = pos + 1; num = ((num + 1) << 7) | int64(buf[pos]&0x7f) }`
of the case `0x60`; the result is `(num, pos)` at the exit of the loop. -/
def offsetLoop (buf : List Byte) : Nat → Nat → Nat → Outcome (Nat × Nat)
  | 0, _, _ => .outOfFuel
  | fuel + 1, pos, num =>
    match buf[pos]? with
    | none => .panic
    | some b =>
      if b.val &&& 0x80 > 0 then
        match buf[pos + 1]? with
        | none => .panic
        | some c => offsetLoop buf fuel (pos + 1) (wrap64 (((num + 1) <<< 7) ||| (c.val &&& 0x7f)))
      else .ret (num, pos)

/-- The index-map key `path[0:len(path)-4] + "idx"`; `none` is the panic of the slice
expression on a path shorter than four bytes. -/
def idxKey (path : GoString) : Option GoString :=
  if 4 ≤ path.length then some (path.take (path.length - 4) ++ ascii "idx") else none

/-- The `switch ot` of `readObjectBytes` on a type that is not final (cases `0x60`, `0x70`,
and no case at all): the early return with an error, or `(baseObjectOffset, pos)`. -/
def resolveBase (indexfiles : GoString → Option idxFile) (path : GoString)
    (buf : List Byte) (ot pos offsetInt : Nat) : Outcome (Except String (Nat × Nat)) :=
  if ot = 0x60 then
    match buf[pos]? with
    | none => .panic
    | some b =>
      match offsetLoop buf (buf.length + 1) pos (b.val &&& 0x7f) with
      | .ret (num, pos1) => .ret (.ok (wrap64 (offsetInt + (2 ^ 64 - num)), pos1 + 1))
      | .panic => .panic
      | .fatal => .fatal
      | .outOfFuel => .outOfFuel
  else if ot = 0x70 then
    if pos + 20 ≤ buf.length then
      match NewId ((buf.drop pos).take 20) with
      | (_, some e) => .ret (.error e)
      | (id, none) =>
        match idxKey path with
        | none => .panic
        | some key =>
          match indexfiles key with
          | none => .panic
          | some f =>
            match mapLookup f.offsetValues id with
            | none => .fatal
            | some baseObjectOffset => .ret (.ok (baseObjectOffset, pos + 20))
    else .panic
  else .ret (.ok (0, pos))

/-- The case `ObjectCommit, ObjectTree, ObjectBlob, ObjectTag` of `readObjectBytes`. -/
def finalObject (env : Env) (file : List Byte) (offsetInt ot : Nat) (length : Int) (pos : Nat)
    (sizeonly : Bool) : Ret :=
  if sizeonly then ⟨ot, length, none, none, false⟩
  else if 2 ^ 63 ≤ wrap64 (offsetInt + pos) then ⟨ot, length, none, some "seek", false⟩
  else
    match env.readerDecompressed (file.drop (offsetInt + pos)) with
    | .error e => ⟨ot, length, none, some e, false⟩
    | .ok dataRc => ⟨ot, length, some (limitReader dataRc length), none, true⟩

/-- The part of `readObjectBytes` after the base object has been read without error:
`r` is what the recursive call returned. -/
def deltaTail (env : Env) (file : List Byte) (offsetInt pos : Nat) (length : Int)
    (sizeonly : Bool) (r : Ret) : Outcome Ret :=
  match r.dataRc with
  | none => .panic
  | some baseRc =>
    if baseRc.failed then .ret ⟨r.ot, length, none, some "read", false⟩
    else if 2 ^ 63 ≤ wrap64 (offsetInt + pos) then .ret ⟨r.ot, length, none, some "seek", false⟩
    else
      match env.readerDecompressed (file.drop (offsetInt + pos)) with
      | .error e => .ret ⟨r.ot, length, none, some e, false⟩
      | .ok rc =>
        let rc1 := (env.readerLittleEndianBase128Number rc).2.2
        let resultObjectLength := (env.readerLittleEndianBase128Number rc1).1
        let rc2 := (env.readerLittleEndianBase128Number rc1).2.2
        if sizeonly then .ret ⟨r.ot, resultObjectLength, none, none, false⟩
        else
          let res := env.readerApplyDelta baseRc.data rc2 resultObjectLength
          .ret ⟨r.ot, length, some ⟨res.1, false⟩, res.2, res.2.isNone⟩

/-- `func readObjectBytes(path string, indexfiles *map[string]*idxFile, offset uint64, sizeonly bool)`.
The first argument bounds the depth of the recursion.  On a regular file `file.Seek` to a
non-negative position returns that position and `file.Read` reads at least one byte
unless the position is at or past the end, where it returns `io.EOF`. -/
def readObjectBytes (env : Env) (indexfiles : GoString → Option idxFile) (path : GoString) :
    Nat → Nat → Bool → Outcome Ret
  | 0, _, _ => .outOfFuel
  | fuel + 1, offset, sizeonly =>
    let offsetInt := wrap64 offset
    match env.fs path with
    | none => .ret ⟨0, 0, none, some "open", false⟩
    | some file =>
      if 2 ^ 63 ≤ offsetInt then .ret ⟨0, 0, none, some "seek", false⟩
      else if file.length ≤ offsetInt then .ret ⟨0, 0, none, some "EOF", false⟩
      else
        let buf := readBuf file offsetInt
        let ot := byteAt buf 0 &&& 0x70
        match readLenInPackFile buf with
        | .ret (length, p) =>
          if isFinalType ot then .ret (finalObject env file offsetInt ot length p sizeonly)
          else
            match resolveBase indexfiles path buf ot p offsetInt with
            | .ret (.error e) => .ret ⟨ot, length, none, some e, false⟩
            | .ret (.ok (baseObjectOffset, pos)) =>
              match readObjectBytes env indexfiles path fuel baseObjectOffset false with
              | .ret r =>
                if r.err.isSome then .ret ⟨r.ot, length, none, r.err, false⟩
                else deltaTail env file offsetInt pos length sizeonly r
              | .panic => .panic
              | .fatal => .fatal
              | .outOfFuel => .outOfFuel
            | .panic => .panic
            | .fatal => .fatal
            | .outOfFuel => .outOfFuel
        | .panic => .panic
        | .fatal => .fatal
        | .outOfFuel => .outOfFuel

/-- The value of `num` after `n` more runs of the loop of the case `0x60`, started at index
`pos` with value `num`, without reduction to 64 bits. -/
def negOffsetFrom (buf : List Byte) : Nat → Nat → Nat → Nat
  | _, num, 0 => num
  | pos, num, n + 1 =>
    negOffsetFrom buf (pos + 1) (((num + 1) <<< 7) ||| (byteAt buf (pos + 1) &&& 0x7f)) n

/-- The recurrence of the claim: `v_0 = c_0 & 0x7F`, `v_i = ((v_(i-1) + 1) << 7) | (c_i & 0x7F)`. -/
def negOffsetRec (c : Nat → Nat) : Nat → Nat
  | 0 => c 0 &&& 0x7F
  | i + 1 => ((negOffsetRec c i + 1) <<< 7) ||| (c (i + 1) &&& 0x7F)

/-- The closed formula of the claim:
`sum_(i=0..k) (c_i & 0x7F) * 128^(k-i) + sum_(j=1..k) 128^j`. -/
def negOffsetFormula (c : Nat → Nat) (k : Nat) : Nat :=
  ∑ i in Finset.range (k + 1), (c i &&& 0x7F) * 128 ^ (k - i) + ∑ j in Finset.Icc 1 k, 128 ^ j

/-- The type tag that `readObjectBytes` arrives at from `offset`: the tag in the header of
the first object of a final type on the chain of bases, each base being the one that
`resolveBase` computes; `none` when the chain does not reach such an object within the
given number of steps, or the file cannot be read there. -/
def baseChainType (env : Env) (indexfiles : GoString → Option idxFile) (path : GoString) :
    Nat → Nat → Option Nat
  | 0, _ => none
  | fuel + 1, offset =>
    match env.fs path with
    | none => none
    | some file =>
      if 2 ^ 63 ≤ wrap64 offset then none
      else if file.length ≤ wrap64 offset then none
      else if isFinalType (byteAt (readBuf file (wrap64 offset)) 0 &&& 0x70) then
        some (byteAt (readBuf file (wrap64 offset)) 0 &&& 0x70)
      else
        match readLenInPackFile (readBuf file (wrap64 offset)) with
        | .ret (_, p) =>
          match resolveBase indexfiles path (readBuf file (wrap64 offset))
              (byteAt (readBuf file (wrap64 offset)) 0 &&& 0x70) p (wrap64 offset) with
          | .ret (.ok (base, _)) => baseChainType env indexfiles path fuel base
          | _ => none
        | _ => none

/-! ## Sample inputs -/

/-- A pack: the 12-byte header, a blob header at offset 12, and at offset 144 an
offset-delta whose base reference is the two bytes `0x80 0x04`. -/
def samplePack : List Byte :=
  [0x50, 0x41, 0x43, 0x4b, 0, 0, 0, 2, 0, 0, 0, 2] ++ [0x35, 1, 2, 3] ++ List.replicate 128 0
    ++ [0x65, 0x80, 0x04, 9, 9]

/-- A pack with objects that do not resolve: at offset 12 an offset-delta with base
reference `0x00` (value 0), at offset 14 an offset-delta with base reference `0x7F`
(value 127), at offset 16 a blob header that declares 7 bytes, at offset 20 an
identifier-delta with the base identifier `0xAB` twenty times, and at offset 41 a
ten-byte commit header whose last byte is `0x08`. -/
def samplePack2 : List Byte :=
  [0x50, 0x41, 0x43, 0x4b, 0, 0, 0, 2, 0, 0, 0, 5] ++ [0x65, 0x00] ++ [0x65, 0x7F]
    ++ [0x37, 1, 2, 3] ++ [0x75] ++ List.replicate 20 0xAB
    ++ [0x90, 0x80, 0x80, 0x80, 0x80, 0x80, 0x80, 0x80, 0x80, 0x08, 7, 7]

/-- The index map with one index, for `b.pack`, which maps the identifier `0x01` twenty
times to the offset 16. -/
def sampleIndexfiles : GoString → Option idxFile :=
  fun key =>
    if key = ascii "b.idx" then
      some ⟨ascii "b.idx", ascii "b.pack", 2, [(List.replicate 20 0x01, 16)]⟩
    else none

/-- An index of 1136 bytes with two objects: the identifiers `0x01` and `0x02` twenty times
each, the offset entries `0x0000000C` (direct, 12) and `0x80000000` (entry 0 of the
secondary table), and a secondary table with the one entry `2^32 + 9`. -/
def sampleIdx : List Byte :=
  [255, 0x74, 0x4F, 0x63, 0, 0, 0, 2] ++ List.replicate 1020 0 ++ [0, 0, 0, 2]
    ++ List.replicate 20 1 ++ List.replicate 20 2 ++ List.replicate 8 0
    ++ [0, 0, 0, 12, 0x80, 0, 0, 0] ++ [0, 0, 0, 1, 0, 0, 0, 9] ++ List.replicate 40 0

/-- An index of 1075 bytes with no object: the magic, the version, a fan-out table of
zeros, and 43 more bytes, so that `excessLen` is 3. -/
def sampleIdxOdd : List Byte :=
  [255, 0x74, 0x4F, 0x63, 0, 0, 0, 2] ++ List.replicate 1024 0 ++ List.replicate 43 0

/-- An index of 1032 bytes with no object and without the two trailing checksums, so that
`excessLen` is -40. -/
def sampleIdxBare : List Byte :=
  [255, 0x74, 0x4F, 0x63, 0, 0, 0, 2] ++ List.replicate 1024 0

/-- An environment with `samplePack` at `a.pack`, `d.pack` and `e.pack`, `samplePack2` at
`b.pack`, index contents at `a.idx`, `c.idx` (the magic alone), `d.idx`, `e.idx` and
`f.idx` (three bytes), a decompression that yields the next five
bytes, a base-128 reader that consumes one byte, and a delta applier that concatenates. -/
def sampleEnv : Env where
  fs := fun p =>
    if p = ascii "a.pack" then some samplePack
    else if p = ascii "b.pack" then some samplePack2
    else if p = ascii "a.idx" then some sampleIdx
    else if p = ascii "c.idx" then some [255, 0x74, 0x4F, 0x63]
    else if p = ascii "d.idx" then some sampleIdxOdd
    else if p = ascii "d.pack" then some samplePack
    else if p = ascii "e.idx" then some sampleIdxBare
    else if p = ascii "e.pack" then some samplePack
    else if p = ascii "f.idx" then some [255, 0x74, 0x4F]
    else none
  readerDecompressed := fun bs => .ok ⟨bs.take 5, false⟩
  readerLittleEndianBase128Number := fun s =>
    (((s.data.headD 0).val : Int), 1, ⟨s.data.drop 1, s.failed⟩)
  readerApplyDelta := fun base rc _ => (base ++ rc.data, none)

/-! ## The negative-offset encoding -/

/-- The lines `num := int64(buf[pos]) & 0x7f` and the loop after it, of the case `0x60`:
the decoding of the base reference that starts at `pos`; the result is `(num, pos)` at
the exit of the loop. -/
def negOffsetDecode (buf : List Byte) (pos : Nat) : Outcome (Nat × Nat) :=
  match buf[pos]? with
  | none => .panic
  | some b => offsetLoop buf (buf.length + 1) pos (b.val &&& 0x7f)

/-- A well-formed encoding, in the words of the claim: a sequence of bytes, not empty, in
which every byte but the last has bit 7 set and the last has bit 7 clear. -/
def WellFormedEnc (cs : List Byte) : Prop :=
  cs ≠ [] ∧ (∀ i, i < cs.length - 1 → byteAt cs i &&& 0x80 > 0)
    ∧ byteAt cs (cs.length - 1) &&& 0x80 = 0

instance (cs : List Byte) : Decidable (WellFormedEnc cs) := by
  unfold WellFormedEnc; infer_instance

/-! ## `GetTags` -/

/-- The call `filepath.Join(a, b)` of the standard library, for two parts that are
clean and not empty: the parts with a separator between them. -/
def filepathJoin (a b : GoString) : GoString := a ++ ascii "/" ++ b

/-- `func (repo *Repository) GetTags() ([]string, error)`, given `repo.Path` and what
`os.Open` followed by `f.Readdir(0)` yields for a directory path: `none` when the
directory cannot be opened, an error of `Readdir`, or the names `fi.Name()` of the
entries in the order in which `Readdir` yields them. -/
def GetTags (readdir : GoString → Option (Except String (List GoString))) (repoPath : GoString) :
    Except String (List GoString) :=
  match readdir (filepathJoin repoPath (ascii "refs/tags")) with
  | none => .error "open"
  | some (.error e) => .error e
  | some (.ok fis) => .ok (fis.foldl (fun names fi => names ++ [fi]) [])

/-! ## `readObjectFile` -/

/-- `func readObjectFile(path string, sizeonly bool)`.  The second argument stands for
the call `fmt.Fscanf(dataRc, "%s %d\x00", &t, &length)` of the standard library on the
buffered stream: an error, or the type word, the length and the stream that is left.
The message of the error for an unknown type word is given without the quoted word.
Closing the decompressed stream is taken to close the file under it. -/
def readObjectFile (env : Env) (Fscanf : Stream → Except String (GoString × Int × Stream))
    (path : GoString) (sizeonly : Bool) : Ret :=
  match env.fs path with
  | none => ⟨0, 0, none, some "open", false⟩
  | some f =>
    match env.readerDecompressed f with
    | .error e => ⟨0, 0, none, some e, false⟩
    | .ok dataRc =>
      match Fscanf dataRc with
      | .error e => ⟨0, 0, none, some e, false⟩
      | .ok (t, length, rest) =>
        if length < 0 then ⟨0, 0, none, some "Negitive length of object file", false⟩
        else if t = ascii "blob" then
          if sizeonly then ⟨ObjectBlob, length, none, none, false⟩
          else ⟨ObjectBlob, length, some (limitReader rest length), none, true⟩
        else if t = ascii "tree" then
          if sizeonly then ⟨ObjectTree, length, none, none, false⟩
          else ⟨ObjectTree, length, some (limitReader rest length), none, true⟩
        else if t = ascii "commit" then
          if sizeonly then ⟨ObjectCommit, length, none, none, false⟩
          else ⟨ObjectCommit, length, some (limitReader rest length), none, true⟩
        else if t = ascii "tag" then
          if sizeonly then ⟨ObjectTag, length, none, none, false⟩
          else ⟨ObjectTag, length, some (limitReader rest length), none, true⟩
        else ⟨0, 0, none, some "Unknown object type", false⟩

/-- The type that the claim assigns to a type word: `blob`, `tree`, `commit` and `tag` go
to the types of these names. -/
def typeOfWord (t : GoString) : Nat :=
  if t = ascii "blob" then ObjectBlob
  else if t = ascii "tree" then ObjectTree
  else if t = ascii "commit" then ObjectCommit
  else if t = ascii "tag" then ObjectTag
  else 0

/-- The four type words of a loose object. -/
def isTypeWord (t : GoString) : Prop :=
  t = ascii "blob" ∨ t = ascii "tree" ∨ t = ascii "commit" ∨ t = ascii "tag"

instance (t : GoString) : Decidable (isTypeWord t) := by
  unfold isTypeWord; infer_instance

/-! ## More sample inputs -/

/-- A file that starts with a blob header (declared length 5) and holds at offset 6 a
header with the type bits `0x00` and at offset 8 one with the type bits `0x50`. -/
def samplePack3 : List Byte := [0x35, 1, 2, 3, 4, 5, 0x05, 9, 0x55, 9, 9, 9]

/-- The environment `sampleEnv` with `samplePack3` at `g.pack`. -/
def sampleEnv3 : Env :=
  { sampleEnv with
    fs := fun p => if p = ascii "g.pack" then some samplePack3 else sampleEnv.fs p }

/-- A directory listing that yields the tags of `refs/tags` of the repository `r` in the
order `v2.0.0`, `v1.0.0`. -/
def sampleReaddir : GoString → Option (Except String (List GoString)) :=
  fun dir =>
    if dir = ascii "r/refs/tags" then some (.ok [ascii "v2.0.0", ascii "v1.0.0"]) else none

/-- A scanner for headers of the form `<word> <digits>\0`, with an optional minus sign
before the digits. -/
def sampleFscanf (s : Stream) : Except String (GoString × Int × Stream) :=
  let t := s.data.takeWhile (fun b => b ≠ 0x20)
  let r := (s.data.dropWhile (fun b => b ≠ 0x20)).drop 1
  let neg := r.head? = some 0x2D
  let r1 := if neg then r.drop 1 else r
  let ds := r1.takeWhile (fun b => b ≠ 0)
  let rest := (r1.dropWhile (fun b => b ≠ 0)).drop 1
  if ds ≠ [] ∧ ds.all (fun b => 0x30 ≤ b.val && b.val ≤ 0x39) ∧ ds.length < r1.length then
    let n : Nat := ds.foldl (fun acc b => 10 * acc + (b.val - 0x30)) 0
    .ok (t, if neg then -(n : Int) else (n : Int), ⟨rest, s.failed⟩)
  else .error "input does not match format"

/-- An environment with three loose objects, stored uncompressed: `blob 5\0hello` at
`h`, `blob -5\0hello` at `i` and `note 5\0hello` at `j`. -/
def sampleEnvLoose : Env where
  fs := fun p =>
    if p = ascii "h" then some (ascii "blob 5" ++ [0] ++ ascii "hello")
    else if p = ascii "i" then some (ascii "blob -5" ++ [0] ++ ascii "hello")
    else if p = ascii "j" then some (ascii "note 5" ++ [0] ++ ascii "hello")
    else none
  readerDecompressed := fun bs => .ok ⟨bs, false⟩
  readerLittleEndianBase128Number := fun s => (0, 0, s)
  readerApplyDelta := fun base _ _ => (base, none)

/-! ## Theorems -/

/-! ### Arithmetic of 64-bit patterns -/

theorem wrap64_of_lt {n : Nat} (h : n < 2 ^ 64) : wrap64 n = n := by
  unfold wrap64; exact Nat.mod_eq_of_lt h

theorem toInt64_of_lt {n : Nat} (h : n < 2 ^ 63) : toInt64 n = (n : Int) := by
  unfold toInt64
  have h1 : n % 2 ^ 64 = n := Nat.mod_eq_of_lt (by omega)
  rw [h1, if_pos h]

/-! ### `readLenInPackFile` -/

/-- The shift table holds `4 + 7 * (i - 1)` at the indices `1 .. 9`. -/
theorem shift_get (i : Nat) (h : i < 9) : shift[i + 1]? = some (4 + 7 * i) := by
  interval_cases i <;> rfl

theorem byteAt_of_get {buf : List Byte} {i : Nat} {b : Byte} (h : buf[i]? = some b) :
    byteAt buf i = b.val := by
  unfold byteAt
  rw [List.getD_eq_getElem?_getD, h]; rfl

theorem get_of_lt (buf : List Byte) (i : Nat) (h : i < buf.length) :
    ∃ b : Byte, buf[i]? = some b ∧ byteAt buf i = b.val := by
  refine ⟨buf[i], ?_, ?_⟩
  · exact List.getElem?_eq_getElem h
  · exact byteAt_of_get (List.getElem?_eq_getElem h)

theorem lenTail_succ (buf : List Byte) (a n : Nat) :
    lenTail buf a (n + 1)
      = (byteAt buf (a + 1) &&& 0x7F) * 2 ^ (4 + 7 * a) + lenTail buf (a + 1) n := by
  unfold lenTail
  rw [Finset.sum_range_succ', add_comm]
  congr 1
  apply Finset.sum_congr rfl
  intro j _
  have h1 : a + 1 + (j + 1) = a + 1 + 1 + j := by omega
  have h2 : a + (j + 1) = a + 1 + j := by omega
  rw [h1, h2]

theorem and_7F_lt (b : Nat) : b &&& 0x7F < 128 := by
  have h := Nat.and_pow_two_sub_one_eq_mod b 7
  have h2 : (2 : Nat) ^ 7 - 1 = 0x7F := by norm_num
  rw [h2] at h
  rw [h]
  exact Nat.mod_lt _ (by norm_num)

theorem lenTail_lt (buf : List Byte) (a n : Nat) :
    lenTail buf a n + 2 ^ (4 + 7 * a) ≤ 2 ^ (4 + 7 * (a + n)) := by
  induction n generalizing a with
  | zero => simp [lenTail]
  | succ n ih =>
    rw [lenTail_succ]
    have h1 := ih (a + 1)
    have h2 := and_7F_lt (byteAt buf (a + 1))
    have h3 : (2 : Nat) ^ (4 + 7 * (a + 1)) = 128 * 2 ^ (4 + 7 * a) := by
      rw [show 4 + 7 * (a + 1) = 7 + (4 + 7 * a) by ring, pow_add]; norm_num
    have h4 : a + 1 + n = a + (n + 1) := by omega
    rw [h4] at h1
    have h5 : (byteAt buf (a + 1) &&& 0x7F) * 2 ^ (4 + 7 * a) ≤ 127 * 2 ^ (4 + 7 * a) :=
      Nat.mul_le_mul_right _ (by omega)
    omega

theorem toInt64_congr {a b : Nat} (h : a % 2 ^ 64 = b % 2 ^ 64) : toInt64 a = toInt64 b := by
  unfold toInt64; rw [h]

theorem wrap64_add_wrap64 (len t rest : Nat) :
    (wrap64 (len + wrap64 t) + rest) % 2 ^ 64 = (len + (t + rest)) % 2 ^ 64 := by
  unfold wrap64; omega

/-- The loop of `readLenInPackFile`, started at index `a` with `n` continuation bytes ahead
and the terminating byte at index `a + n <= 9`. -/
theorem readLenLoop_run (buf : List Byte) :
    ∀ (n fuel a len : Nat), n < fuel → a + n ≤ 9 → a + n < buf.length →
      (∀ i, a ≤ i → i < a + n → byteAt buf i &&& 0x80 > 0) →
      byteAt buf (a + n) &&& 0x80 = 0 →
      readLenLoop buf fuel a len = .ret (toInt64 (len + lenTail buf a n), a + n + 1) := by
  intro n
  induction n with
  | zero =>
    intro fuel a len hf _ hlen _ hstop
    obtain ⟨fuel, rfl⟩ : ∃ f, fuel = f + 1 := ⟨fuel - 1, by omega⟩
    obtain ⟨b, hb, hbv⟩ := get_of_lt buf a (by omega)
    simp only [Nat.add_zero] at hstop
    rw [hbv] at hstop
    simp [readLenLoop, hb, hstop, lenTail]
  | succ n ih =>
    intro fuel a len hf h9 hlen hcont hstop
    obtain ⟨fuel, rfl⟩ : ∃ f, fuel = f + 1 := ⟨fuel - 1, by omega⟩
    obtain ⟨b, hb, hbv⟩ := get_of_lt buf a (by omega)
    obtain ⟨c, hc, hcv⟩ := get_of_lt buf (a + 1) (by omega)
    have hb80 := hcont a (le_refl _) (by omega)
    rw [hbv] at hb80
    have hs := shift_get a (by omega)
    have hrec := ih fuel (a + 1)
      (wrap64 (len + wrap64 ((c.val &&& 0x7F) <<< (4 + 7 * a)))) (by omega) (by omega) (by omega)
      (fun i h1 h2 => hcont i (by omega) (by omega))
      (by rw [show a + 1 + n = a + (n + 1) by omega]; exact hstop)
    rw [readLenLoop, hb]
    simp only [hb80, if_true, hc, hs]
    rw [hrec]
    congr 1
    · congr 1
      · apply toInt64_congr
        rw [lenTail_succ, hcv, Nat.shiftLeft_eq]
        exact wrap64_add_wrap64 _ _ _
      · omega

theorem lenTail_eq_sum_Icc (buf : List Byte) (k : Nat) :
    lenTail buf 0 k = ∑ i in Finset.Icc 1 k, (byteAt buf i &&& 0x7F) * 2 ^ (4 + 7 * (i - 1)) := by
  unfold lenTail
  rw [Finset.range_eq_Ico, ← Nat.Ico_succ_right]
  rw [← Finset.sum_Ico_add' (fun i => (byteAt buf i &&& 0x7F) * 2 ^ (4 + 7 * (i - 1))) 0 k 1]
  apply Finset.sum_congr rfl
  intro j _
  simp [Nat.add_comm]

theorem and_0F_lt (b : Nat) : b &&& 0x0F < 16 := by
  have h := Nat.and_pow_two_sub_one_eq_mod b 4
  have h2 : (2 : Nat) ^ 4 - 1 = 0x0F := by norm_num
  rw [h2] at h
  rw [h]
  exact Nat.mod_lt _ (by norm_num)

theorem and_80_of_and_8F {x y : Nat} (h : x &&& 0x8F = y &&& 0x8F) : x &&& 0x80 = y &&& 0x80 := by
  have e : ∀ z : Nat, z &&& 0x80 = (z &&& 0x8F) &&& 0x80 := by
    intro z; rw [Nat.land_assoc]; rfl
  rw [e x, e y, h]

theorem and_0F_of_and_8F {x y : Nat} (h : x &&& 0x8F = y &&& 0x8F) : x &&& 0x0F = y &&& 0x0F := by
  have e : ∀ z : Nat, z &&& 0x0F = (z &&& 0x8F) &&& 0x0F := by
    intro z; rw [Nat.land_assoc]; rfl
  rw [e x, e y, h]

/-- The decoded length when the terminating byte is at index `k <= 8`. -/
theorem readLenInPackFile_value (buf : List Byte) (k : Nat) (hk : k ≤ 8) (hlen : k < buf.length)
    (hcont : ∀ i, i < k → byteAt buf i &&& 0x80 > 0) (hstop : byteAt buf k &&& 0x80 = 0) :
    readLenInPackFile buf
      = .ret ((((byteAt buf 0 &&& 0x0F)
          + ∑ i in Finset.Icc 1 k, (byteAt buf i &&& 0x7F) * 2 ^ (4 + 7 * (i - 1)) : Nat) : Int),
          k + 1) := by
  obtain ⟨b, hb, hbv⟩ := get_of_lt buf 0 (by omega)
  have hrun := readLenLoop_run buf k 11 0 (b.val &&& 0x0F) (by omega) (by omega) (by omega)
    (fun i _ h2 => hcont i (by omega)) (by rw [Nat.zero_add]; exact hstop)
  unfold readLenInPackFile
  rw [hb]
  simp only
  rw [hrun, ← lenTail_eq_sum_Icc, hbv]
  congr 1
  congr 1
  · apply toInt64_of_lt
    have h1 := lenTail_lt buf 0 k
    have h2 := and_0F_lt b.val
    have h3 : (2 : Nat) ^ (4 + 7 * (0 + k)) ≤ 2 ^ 60 :=
      Nat.pow_le_pow_right (by norm_num) (by omega)
    simp only [Nat.mul_zero, Nat.add_zero, Nat.reducePow] at h1 h3 ⊢
    omega
  · omega

/-- C1: when the first byte of `buf` with bit 7 clear is at index `k <= 8`,
`readLenInPackFile` returns `advance = k + 1` and
`length = (buf[0] & 0x0F) + sum over i in 1..k of (buf[i] & 0x7F) * 2^(4 + 7*(i-1))`,
and replacing `buf[0]` by any byte that differs from it only in the type bits 4-6
(those that `readObjectBytes` reads as `buf[0] & 0x70`) leaves the result unchanged. -/
theorem readLenInPackFile_decode (buf : List Byte) (k : Nat) (hk : k ≤ 8) (hlen : k < buf.length)
    (hcont : ∀ i, i < k → byteAt buf i &&& 0x80 > 0) (hstop : byteAt buf k &&& 0x80 = 0) :
    readLenInPackFile buf
        = .ret ((((byteAt buf 0 &&& 0x0F)
            + ∑ i in Finset.Icc 1 k, (byteAt buf i &&& 0x7F) * 2 ^ (4 + 7 * (i - 1)) : Nat) : Int),
            k + 1)
      ∧ ∀ b' : Byte, b'.val &&& 0x8F = byteAt buf 0 &&& 0x8F →
          readLenInPackFile (buf.set 0 b') = readLenInPackFile buf := by
  refine ⟨readLenInPackFile_value buf k hk hlen hcont hstop, ?_⟩
  intro b' hb'
  cases buf with
  | nil => simp at hlen
  | cons b0 tl =>
    have hset : (b0 :: tl).set 0 b' = b' :: tl := rfl
    have htail : ∀ i, 0 < i → byteAt (b' :: tl) i = byteAt (b0 :: tl) i := by
      intro i hi
      obtain ⟨j, rfl⟩ : ∃ j, i = j + 1 := ⟨i - 1, by omega⟩
      rfl
    have h80 : byteAt (b' :: tl) 0 &&& 0x80 = byteAt (b0 :: tl) 0 &&& 0x80 :=
      and_80_of_and_8F hb'
    have h0F : byteAt (b' :: tl) 0 &&& 0x0F = byteAt (b0 :: tl) 0 &&& 0x0F :=
      and_0F_of_and_8F hb'
    have hcont' : ∀ i, i < k → byteAt (b' :: tl) i &&& 0x80 > 0 := by
      intro i hi
      rcases Nat.eq_zero_or_pos i with h0 | hpos
      · subst h0; rw [h80]; exact hcont 0 hi
      · rw [htail i hpos]; exact hcont i hi
    have hstop' : byteAt (b' :: tl) k &&& 0x80 = 0 := by
      rcases Nat.eq_zero_or_pos k with h0 | hpos
      · subst h0; rw [h80]; exact hstop
      · rw [htail k hpos]; exact hstop
    rw [hset, readLenInPackFile_value (b' :: tl) k hk hlen hcont' hstop',
      readLenInPackFile_value (b0 :: tl) k hk hlen hcont hstop, h0F]
    congr 4
    apply Finset.sum_congr rfl
    intro i hi
    rw [htail i (by simp at hi; omega)]

/-- C1, at the header of a blob of length `2^32 - 1`. -/
theorem readLenInPackFile_decode_witness :
    (4 ≤ 8 ∧ 4 < ([0xBF, 0xFF, 0xFF, 0xFF, 0x7F] : List Byte).length
      ∧ (∀ i, i < 4 → byteAt [0xBF, 0xFF, 0xFF, 0xFF, 0x7F] i &&& 0x80 > 0)
      ∧ byteAt [0xBF, 0xFF, 0xFF, 0xFF, 0x7F] 4 &&& 0x80 = 0)
    ∧ readLenInPackFile [0xBF, 0xFF, 0xFF, 0xFF, 0x7F] = .ret (4294967295, 5) :=
  ⟨⟨by decide, by decide, by decide, by decide⟩,
    (readLenInPackFile_decode [0xBF, 0xFF, 0xFF, 0xFF, 0x7F] 4 (by decide) (by decide)
      (by decide) (by decide)).1.trans (by decide)⟩

/-- Hand-built headers for the boundary values 0, 15, 16 and `2^32 - 1` decode to
`(T, V, bytesConsumed)` for each of the eight values `T = 16 * t` of the type bits. -/
theorem readLenInPackFile_boundary_values :
    ∀ t : Fin 8,
      (readLenInPackFile [Fin.ofNat (16 * t.val)] = .ret (0, 1)
        ∧ byteAt [Fin.ofNat (16 * t.val)] 0 &&& 0x70 = 16 * t.val)
      ∧ (readLenInPackFile [Fin.ofNat (16 * t.val + 15)] = .ret (15, 1)
        ∧ byteAt [Fin.ofNat (16 * t.val + 15)] 0 &&& 0x70 = 16 * t.val)
      ∧ (readLenInPackFile [Fin.ofNat (128 + 16 * t.val), 1] = .ret (16, 2)
        ∧ byteAt [Fin.ofNat (128 + 16 * t.val), 1] 0 &&& 0x70 = 16 * t.val)
      ∧ (readLenInPackFile [Fin.ofNat (128 + 16 * t.val + 15), 0xFF, 0xFF, 0xFF, 0x7F]
            = .ret (4294967295, 5)
        ∧ byteAt [Fin.ofNat (128 + 16 * t.val + 15), 0xFF, 0xFF, 0xFF, 0x7F] 0 &&& 0x70
            = 16 * t.val) := by
  decide

/-! ### The negative-offset encoding of the case `0x60` -/

theorem shl7_or (a c : Nat) : (a <<< 7) ||| (c &&& 0x7f) = a * 128 + (c &&& 0x7f) := by
  have h := Nat.mul_add_lt_is_or (i := 7) (b := c &&& 0x7f) (and_7F_lt c) a
  rw [Nat.shiftLeft_eq]
  simp only [Nat.reducePow] at h ⊢
  rw [Nat.mul_comm a 128, ← h]

theorem negOffsetFrom_ge (buf : List Byte) :
    ∀ (n pos num : Nat), num ≤ negOffsetFrom buf pos num n := by
  intro n
  induction n with
  | zero => intro pos num; exact le_refl _
  | succ n ih =>
    intro pos num
    unfold negOffsetFrom
    refine le_trans ?_ (ih _ _)
    rw [shl7_or]; omega

theorem negOffsetFrom_succ (buf : List Byte) :
    ∀ (n pos num : Nat), negOffsetFrom buf pos num (n + 1)
      = ((negOffsetFrom buf pos num n + 1) <<< 7) ||| (byteAt buf (pos + n + 1) &&& 0x7f) := by
  intro n
  induction n with
  | zero => intro pos num; rfl
  | succ n ih =>
    intro pos num
    rw [negOffsetFrom, ih (pos + 1), negOffsetFrom, show pos + 1 + n + 1 = pos + (n + 1) + 1 by omega]

/-- The loop of the case `0x60`, started at index `pos` with `n` continuation bytes ahead. -/
theorem offsetLoop_run (buf : List Byte) :
    ∀ (n fuel pos num : Nat), n < fuel → pos + n < buf.length →
      (∀ i, i < n → byteAt buf (pos + i) &&& 0x80 > 0) →
      byteAt buf (pos + n) &&& 0x80 = 0 →
      negOffsetFrom buf pos num n < 2 ^ 64 →
      offsetLoop buf fuel pos num = .ret (negOffsetFrom buf pos num n, pos + n) := by
  intro n
  induction n with
  | zero =>
    intro fuel pos num hf hlen _ hstop _
    obtain ⟨fuel, rfl⟩ : ∃ f, fuel = f + 1 := ⟨fuel - 1, by omega⟩
    obtain ⟨b, hb, hbv⟩ := get_of_lt buf pos (by omega)
    simp only [Nat.add_zero] at hstop
    rw [hbv] at hstop
    simp [offsetLoop, hb, hstop, negOffsetFrom]
  | succ n ih =>
    intro fuel pos num hf hlen hcont hstop hfit
    obtain ⟨fuel, rfl⟩ : ∃ f, fuel = f + 1 := ⟨fuel - 1, by omega⟩
    obtain ⟨b, hb, hbv⟩ := get_of_lt buf pos (by omega)
    obtain ⟨c, hc, hcv⟩ := get_of_lt buf (pos + 1) (by omega)
    have hb80 := hcont 0 (by omega)
    rw [Nat.add_zero, hbv] at hb80
    rw [negOffsetFrom, hcv] at hfit
    have hstep : ((num + 1) <<< 7 ||| (c.val &&& 0x7f)) < 2 ^ 64 :=
      lt_of_le_of_lt (negOffsetFrom_ge buf n (pos + 1) _) hfit
    have hrec := ih fuel (pos + 1) ((num + 1) <<< 7 ||| (c.val &&& 0x7f)) (by omega) (by omega)
      (fun i hi => by
        have := hcont (i + 1) (by omega)
        rwa [show pos + (i + 1) = pos + 1 + i by omega] at this)
      (by rw [show pos + 1 + n = pos + (n + 1) by omega]; exact hstop) hfit
    rw [offsetLoop, hb]
    simp only [hb80, if_true, hc]
    rw [wrap64_of_lt hstep, hrec, negOffsetFrom, hcv]
    congr 2
    omega

theorem geom128 (k : Nat) :
    ∑ j in Finset.Icc 1 k, 128 ^ j + 128 ^ (k + 1) = 128 + 128 * ∑ j in Finset.Icc 1 k, 128 ^ j := by
  induction k with
  | zero => simp
  | succ k ih =>
    rw [Finset.sum_Icc_succ_top (by omega)]
    have : (128 : Nat) ^ (k + 1 + 1) = 128 * 128 ^ (k + 1) := by ring
    omega

theorem negOffsetFormula_zero (c : Nat → Nat) : negOffsetFormula c 0 = c 0 &&& 0x7F := by
  simp [negOffsetFormula]

theorem negOffsetFormula_succ (c : Nat → Nat) (k : Nat) :
    negOffsetFormula c (k + 1) = (negOffsetFormula c k + 1) * 128 + (c (k + 1) &&& 0x7F) := by
  unfold negOffsetFormula
  rw [Finset.sum_range_succ, Finset.sum_Icc_succ_top (by omega)]
  have h1 : ∑ i in Finset.range (k + 1), (c i &&& 0x7F) * 128 ^ (k + 1 - i)
      = 128 * ∑ i in Finset.range (k + 1), (c i &&& 0x7F) * 128 ^ (k - i) := by
    rw [Finset.mul_sum]
    apply Finset.sum_congr rfl
    intro i hi
    have hik : i ≤ k := by simp at hi; omega
    rw [show k + 1 - i = (k - i) + 1 by omega, pow_succ]; ring
  have h2 := geom128 k
  rw [h1]
  simp only [Nat.sub_self, pow_zero, Nat.mul_one]
  omega

/-- The recurrence and the closed formula of the negative-offset value agree. -/
theorem negOffsetRec_eq_formula (c : Nat → Nat) (k : Nat) :
    negOffsetRec c k = negOffsetFormula c k := by
  induction k with
  | zero => rw [negOffsetFormula_zero]; rfl
  | succ k ih => rw [negOffsetRec, shl7_or, ih, negOffsetFormula_succ]

theorem negOffsetFrom_eq_rec (buf : List Byte) (p : Nat) (k : Nat) :
    negOffsetFrom buf p (byteAt buf p &&& 0x7f) k = negOffsetRec (fun i => byteAt buf (p + i)) k := by
  induction k with
  | zero => rfl
  | succ k ih => rw [negOffsetFrom_succ, ih, negOffsetRec]; rfl

theorem pow128_le_formula (c : Nat → Nat) (k : Nat) : 128 ^ k ≤ negOffsetFormula c k + 1 := by
  cases k with
  | zero => simp
  | succ k =>
    rw [negOffsetFormula_succ]
    have := pow128_le_formula c k
    rw [pow_succ]; omega

theorem readBuf_length (file : List Byte) (o : Nat) : (readBuf file o).length = 1024 := by
  unfold readBuf
  rw [List.length_append, List.length_replicate]
  have : ((file.drop o).take 1024).length ≤ 1024 := by
    rw [List.length_take]; exact Nat.min_le_left _ _
  omega

theorem readLenLoop_advance (buf : List Byte) :
    ∀ (fuel a len : Nat) (l : Int) (p : Nat), a ≤ 9 →
      readLenLoop buf fuel a len = .ret (l, p) → a + 1 ≤ p ∧ p ≤ 10 := by
  intro fuel
  induction fuel with
  | zero => intro a len l p _ h; simp [readLenLoop] at h
  | succ fuel ih =>
    intro a len l p ha h
    rw [readLenLoop] at h
    split at h
    · simp at h
    · split at h
      · split at h
        · rename_i c s hc hs
          have hs9 : a + 1 < shift.length := by
            by_contra hge
            rw [List.getElem?_eq_none (by omega)] at hs
            simp at hs
          have hs10 : a + 1 ≤ 9 := by simp [shift] at hs9; omega
          have := ih (a + 1) _ l p hs10 h
          omega
        · simp at h
      · simp only [Outcome.ret.injEq, Prod.mk.injEq] at h
        omega

/-- The count of header bytes that `readLenInPackFile` reports is between 1 and 10. -/
theorem readLenInPackFile_advance {buf : List Byte} {l : Int} {p : Nat}
    (h : readLenInPackFile buf = .ret (l, p)) : 1 ≤ p ∧ p ≤ 10 := by
  unfold readLenInPackFile at h
  split at h
  · simp at h
  · have := readLenLoop_advance buf 11 0 _ l p (by omega) h
    omega

theorem isFinalType_60 : isFinalType 0x60 = false := by decide

/-- The case `0x60` of `resolveBase` on a well-formed negative-offset encoding. -/
theorem resolveBase_offsetDelta (indexfiles : GoString → Option idxFile) (path : GoString)
    (buf : List Byte) (p o k : Nat) (hlen : p + k < buf.length)
    (hcont : ∀ i, i < k → byteAt buf (p + i) &&& 0x80 > 0)
    (hstop : byteAt buf (p + k) &&& 0x80 = 0)
    (hfit : negOffsetFormula (fun i => byteAt buf (p + i)) k < 2 ^ 63) :
    resolveBase indexfiles path buf 0x60 p o
      = .ret (.ok (wrap64 (o + (2 ^ 64 - negOffsetFormula (fun i => byteAt buf (p + i)) k)),
          p + k + 1)) := by
  obtain ⟨b, hb, hbv⟩ := get_of_lt buf p (by omega)
  have hval : negOffsetFrom buf p (b.val &&& 0x7f) k
      = negOffsetFormula (fun i => byteAt buf (p + i)) k := by
    rw [← hbv, negOffsetFrom_eq_rec, negOffsetRec_eq_formula]
  have hrun := offsetLoop_run buf k (buf.length + 1) p (b.val &&& 0x7f) (by omega) hlen hcont
    hstop (by rw [hval]; omega)
  unfold resolveBase
  rw [if_pos rfl, hb]
  simp only [hrun, hval]

theorem formula_k_le (c : Nat → Nat) (k : Nat) (h : negOffsetFormula c k < 2 ^ 63) : k ≤ 9 := by
  have h1 := pow128_le_formula c k
  have h2 : (128 : Nat) ^ k ≤ 128 ^ 9 := by
    have : (128 : Nat) ^ 9 = 2 ^ 63 := by norm_num
    omega
  exact (Nat.pow_le_pow_iff_right (by norm_num)).1 h2

/-- The unfolding of `readObjectBytes` at an object that is not of a final type and whose
base reference resolves to `(base, pos)`. -/
theorem readObjectBytes_recurse (env : Env) (indexfiles : GoString → Option idxFile)
    (path : GoString) (fuel o : Nat) (sizeonly : Bool) (file : List Byte) (l : Int)
    (p base pos : Nat)
    (hfile : env.fs path = some file) (ho : o < file.length) (ho63 : o < 2 ^ 63)
    (htype : isFinalType (byteAt (readBuf file o) 0 &&& 0x70) = false)
    (hhdr : readLenInPackFile (readBuf file o) = .ret (l, p))
    (hbase : resolveBase indexfiles path (readBuf file o) (byteAt (readBuf file o) 0 &&& 0x70) p o
      = .ret (.ok (base, pos))) :
    readObjectBytes env indexfiles path (fuel + 1) o sizeonly
      = match readObjectBytes env indexfiles path fuel base false with
        | .ret r =>
          if r.err.isSome then .ret ⟨r.ot, l, none, r.err, false⟩
          else deltaTail env file o pos l sizeonly r
        | .panic => .panic
        | .fatal => .fatal
        | .outOfFuel => .outOfFuel := by
  have hw : wrap64 o = o := wrap64_of_lt (by omega)
  rw [readObjectBytes]
  simp only [hfile, hw]
  rw [if_neg (by omega), if_neg (by omega)]
  simp only [hhdr, htype, hbase]
  rfl

/-- C2: at an offset-delta object at pack offset `o` whose base-offset bytes after the
`p` header bytes are `c_0 .. c_k` (bit 7 set in all but the last, value below `2^63`),
`readObjectBytes` decodes `v` by `v_0 = c_0 & 0x7F`, `v_i = ((v_(i-1) + 1) << 7) | (c_i & 0x7F)`,
which is `sum_(i=0..k) (c_i & 0x7F) * 128^(k-i) + sum_(j=1..k) 128^j`, reads the base at the
offset `o - v` of the same pack file, and goes on at position `o + p + k + 1`. -/
theorem readObjectBytes_offsetDelta (env : Env) (indexfiles : GoString → Option idxFile)
    (path : GoString) (fuel o : Nat) (sizeonly : Bool) (file : List Byte) (l : Int) (p k : Nat)
    (hfile : env.fs path = some file) (ho : o < file.length) (ho63 : o < 2 ^ 63)
    (htype : byteAt (readBuf file o) 0 &&& 0x70 = 0x60)
    (hhdr : readLenInPackFile (readBuf file o) = .ret (l, p))
    (hcont : ∀ i, i < k → byteAt (readBuf file o) (p + i) &&& 0x80 > 0)
    (hstop : byteAt (readBuf file o) (p + k) &&& 0x80 = 0)
    (hfit : negOffsetFormula (fun i => byteAt (readBuf file o) (p + i)) k < 2 ^ 63) :
    negOffsetRec (fun i => byteAt (readBuf file o) (p + i)) k
        = negOffsetFormula (fun i => byteAt (readBuf file o) (p + i)) k
      ∧ resolveBase indexfiles path (readBuf file o) 0x60 p o
        = .ret (.ok (wrap64 (o + (2 ^ 64
            - negOffsetFormula (fun i => byteAt (readBuf file o) (p + i)) k)), p + k + 1))
      ∧ toInt64 (wrap64 (o + (2 ^ 64
            - negOffsetFormula (fun i => byteAt (readBuf file o) (p + i)) k)))
        = (o : Int) - (negOffsetFormula (fun i => byteAt (readBuf file o) (p + i)) k : Nat)
      ∧ readObjectBytes env indexfiles path (fuel + 1) o sizeonly
        = match readObjectBytes env indexfiles path fuel
            (wrap64 (o + (2 ^ 64
              - negOffsetFormula (fun i => byteAt (readBuf file o) (p + i)) k))) false with
          | .ret r =>
            if r.err.isSome then .ret ⟨r.ot, l, none, r.err, false⟩
            else deltaTail env file o (p + k + 1) l sizeonly r
          | .panic => .panic
          | .fatal => .fatal
          | .outOfFuel => .outOfFuel := by
  have hk := formula_k_le _ k hfit
  have hp := readLenInPackFile_advance hhdr
  have hbase := resolveBase_offsetDelta indexfiles path (readBuf file o) p o k
    (by rw [readBuf_length]; omega) hcont hstop hfit
  refine ⟨negOffsetRec_eq_formula _ _, hbase, ?_, ?_⟩
  · generalize negOffsetFormula (fun i => byteAt (readBuf file o) (p + i)) k = v at hfit
    unfold toInt64 wrap64
    split <;> omega
  · exact readObjectBytes_recurse env indexfiles path fuel o sizeonly file l p _ _ hfile ho ho63
      (by rw [htype]; exact isFinalType_60) hhdr (by rw [htype]; exact hbase)

set_option maxRecDepth 100000 in
/-- C2, at the offset-delta of `samplePack` (offset 144, base reference `0x80 0x04`, so
`v = ((0 + 1) << 7) | 4 = 132` and the base is at offset 12). -/
theorem readObjectBytes_offsetDelta_witness :
    (sampleEnv.fs (ascii "a.pack") = some samplePack ∧ 144 < samplePack.length
      ∧ 144 < 2 ^ 63
      ∧ byteAt (readBuf samplePack 144) 0 &&& 0x70 = 0x60
      ∧ readLenInPackFile (readBuf samplePack 144) = .ret (5, 1)
      ∧ (∀ i, i < 1 → byteAt (readBuf samplePack 144) (1 + i) &&& 0x80 > 0)
      ∧ byteAt (readBuf samplePack 144) (1 + 1) &&& 0x80 = 0
      ∧ negOffsetFormula (fun i => byteAt (readBuf samplePack 144) (1 + i)) 1 < 2 ^ 63)
    ∧ negOffsetFormula (fun i => byteAt (readBuf samplePack 144) (1 + i)) 1 = 132
    ∧ resolveBase (fun _ => none) (ascii "a.pack") (readBuf samplePack 144) 0x60 1 144
        = .ret (.ok (12, 3)) :=
  ⟨⟨by decide, by decide, by decide, by decide, by decide, by decide, by decide, by decide⟩,
    by decide,
    (readObjectBytes_offsetDelta sampleEnv (fun _ => none) (ascii "a.pack") 1 144 true samplePack
      5 1 1 (by decide) (by decide) (by decide) (by decide) (by decide) (by decide) (by decide)
      (by decide)).2.1.trans (by rfl)⟩

theorem isFinalType_ne_delta {ot : Nat} (h : isFinalType ot = true) : ot ≠ 0x60 ∧ ot ≠ 0x70 := by
  constructor <;> (intro h'; subst h'; revert h; decide)

theorem finalObject_ot (env : Env) (file : List Byte) (o ot : Nat) (l : Int) (p : Nat)
    (sizeonly : Bool) : (finalObject env file o ot l p sizeonly).ot = ot := by
  unfold finalObject
  split
  · rfl
  · split
    · rfl
    · split <;> rfl

theorem deltaTail_ot (env : Env) (file : List Byte) (o pos : Nat) (l : Int) (sizeonly : Bool)
    (r r' : Ret) (h : deltaTail env file o pos l sizeonly r = .ret r') : r'.ot = r.ot := by
  unfold deltaTail at h
  split at h
  · simp at h
  · split at h
    · simp only [Outcome.ret.injEq] at h; rw [← h]
    · split at h
      · simp only [Outcome.ret.injEq] at h; rw [← h]
      · split at h
        · simp only [Outcome.ret.injEq] at h; rw [← h]
        · simp only at h
          split at h
          · simp only [Outcome.ret.injEq] at h; rw [← h]
          · simp only [Outcome.ret.injEq] at h; rw [← h]

theorem readObjectBytes_chain (env : Env) (indexfiles : GoString → Option idxFile)
    (path : GoString) :
    ∀ (fuel o : Nat) (sizeonly : Bool) (r : Ret),
      readObjectBytes env indexfiles path fuel o sizeonly = .ret r → r.err = none →
      isFinalType r.ot = true ∧ baseChainType env indexfiles path fuel o = some r.ot := by
  intro fuel
  induction fuel with
  | zero => intro o sizeonly r h; simp [readObjectBytes] at h
  | succ fuel ih =>
    intro o sizeonly r h herr
    rw [readObjectBytes] at h
    rw [baseChainType]
    simp only at h
    split at h
    · simp only [Outcome.ret.injEq] at h; rw [← h] at herr; simp at herr
    · rename_i file hfile
      split at h
      · simp only [Outcome.ret.injEq] at h; rw [← h] at herr; simp at herr
      · rename_i h63
        rw [if_neg h63]
        split at h
        · simp only [Outcome.ret.injEq] at h; rw [← h] at herr; simp at herr
        · rename_i hlen
          rw [if_neg hlen]
          split at h
          · rename_i l p hhdr
            split at h
            · rename_i hfin
              simp only [Outcome.ret.injEq] at h
              rw [if_pos hfin, ← h, finalObject_ot]
              exact ⟨hfin, rfl⟩
            · rename_i hfin
              rw [if_neg hfin]
              simp only [hhdr]
              split at h
              · simp only [Outcome.ret.injEq] at h; rw [← h] at herr; simp at herr
              · rename_i base pos hbase
                simp only [hbase]
                split at h
                · rename_i r0 hr0
                  split at h
                  · simp only [Outcome.ret.injEq] at h; rw [← h] at herr
                    simp only at herr
                    rename_i hsome
                    rw [herr] at hsome; simp at hsome
                  · rename_i hnone
                    have hr0err : r0.err = none := by
                      cases hr : r0.err with
                      | none => rfl
                      | some e => rw [hr] at hnone; simp at hnone
                    have hot := deltaTail_ot env file _ pos l sizeonly r0 r h
                    rw [hot]
                    exact ih base false r0 hr0 hr0err
                · simp at h
                · simp at h
                · simp at h
              · simp at h
              · simp at h
              · simp at h
          · simp at h
          · simp at h
          · simp at h

/-- C5: whenever `readObjectBytes` returns without error, the returned type is one of the
four final kinds (commit, tree, blob, tag), never a delta tag (`0x60`, `0x70`), and it is
the type tag in the header of the first object of a final kind on the chain of bases that
starts at the object read. -/
theorem readObjectBytes_type_final (env : Env) (indexfiles : GoString → Option idxFile)
    (path : GoString) (fuel o : Nat) (sizeonly : Bool) (r : Ret)
    (h : readObjectBytes env indexfiles path fuel o sizeonly = .ret r) (herr : r.err = none) :
    (r.ot = ObjectCommit ∨ r.ot = ObjectTree ∨ r.ot = ObjectBlob ∨ r.ot = ObjectTag)
      ∧ r.ot ≠ 0x60 ∧ r.ot ≠ 0x70
      ∧ baseChainType env indexfiles path fuel o = some r.ot := by
  obtain ⟨hfin, hchain⟩ := readObjectBytes_chain env indexfiles path fuel o sizeonly r h herr
  refine ⟨?_, (isFinalType_ne_delta hfin).1, (isFinalType_ne_delta hfin).2, hchain⟩
  simpa [isFinalType, or_assoc] using hfin

set_option maxRecDepth 100000 in
/-- C5, at the offset-delta of `samplePack`, whose base is the blob at offset 12. -/
theorem readObjectBytes_type_final_witness :
    (readObjectBytes sampleEnv (fun _ => none) (ascii "a.pack") 2 144 false
        = .ret ⟨0x30, 5, some ⟨[1, 2, 3, 0, 0], false⟩, none, true⟩
      ∧ (⟨0x30, 5, some ⟨[1, 2, 3, 0, 0], false⟩, none, true⟩ : Ret).err = none)
    ∧ byteAt (readBuf samplePack 144) 0 &&& 0x70 = 0x60
    ∧ byteAt (readBuf samplePack 12) 0 &&& 0x70 = 0x30
    ∧ baseChainType sampleEnv (fun _ => none) (ascii "a.pack") 2 144 = some 0x30 :=
  ⟨⟨by decide, rfl⟩, by decide, by decide,
    (readObjectBytes_type_final sampleEnv (fun _ => none) (ascii "a.pack") 2 144 false
      ⟨0x30, 5, some ⟨[1, 2, 3, 0, 0], false⟩, none, true⟩ (by decide) rfl).2.2.2⟩

set_option maxRecDepth 100000 in
/-- C6 fails as stated: in `samplePack2` the offset-delta at offset 12 has the base
reference `0x00`, and the base offset computed is 12 itself (the recursion then never
ends); the offset-delta at offset 14 has the base reference `0x7F`, and the base offset
computed is `2^64 - 113`, where the recursive call fails in `Seek`. -/
theorem offsetDelta_base_not_earlier :
    (byteAt (readBuf samplePack2 12) 0 &&& 0x70 = 0x60
      ∧ readLenInPackFile (readBuf samplePack2 12) = .ret (5, 1)
      ∧ resolveBase sampleIndexfiles (ascii "b.pack") (readBuf samplePack2 12) 0x60 1 12
          = .ret (.ok (12, 2))
      ∧ ¬ (12 < 12)
      ∧ readObjectBytes sampleEnv sampleIndexfiles (ascii "b.pack") 40 12 false = .outOfFuel)
    ∧ (byteAt (readBuf samplePack2 14) 0 &&& 0x70 = 0x60
      ∧ readLenInPackFile (readBuf samplePack2 14) = .ret (5, 1)
      ∧ resolveBase sampleIndexfiles (ascii "b.pack") (readBuf samplePack2 14) 0x60 1 14
          = .ret (.ok (18446744073709551503, 2))
      ∧ ¬ (18446744073709551503 < 14)
      ∧ readObjectBytes sampleEnv sampleIndexfiles (ascii "b.pack") 40 14 false
          = .ret ⟨0, 5, none, some "seek", false⟩) :=
  ⟨⟨by decide, by decide, by rfl, by decide, by rfl⟩,
    ⟨by decide, by decide, by rfl, by decide, by rfl⟩⟩

/-- C6, amended: at an offset-delta object at pack offset `o < 2^63` whose base reference
decodes to `v < 2^63`, the base offset that `readObjectBytes` computes is `o - v` reduced
modulo `2^64`, and it is an earlier position of the pack, `base < o`, exactly when
`1 <= v <= o`. -/
theorem offsetDelta_base_earlier_iff (indexfiles : GoString → Option idxFile) (path : GoString)
    (buf : List Byte) (p o k : Nat) (ho63 : o < 2 ^ 63) (hlen : p + k < buf.length)
    (hcont : ∀ i, i < k → byteAt buf (p + i) &&& 0x80 > 0)
    (hstop : byteAt buf (p + k) &&& 0x80 = 0)
    (hfit : negOffsetFormula (fun i => byteAt buf (p + i)) k < 2 ^ 63) :
    resolveBase indexfiles path buf 0x60 p o
        = .ret (.ok (wrap64 (o + (2 ^ 64 - negOffsetFormula (fun i => byteAt buf (p + i)) k)),
            p + k + 1))
      ∧ (wrap64 (o + (2 ^ 64 - negOffsetFormula (fun i => byteAt buf (p + i)) k)) < o
        ↔ 1 ≤ negOffsetFormula (fun i => byteAt buf (p + i)) k
          ∧ negOffsetFormula (fun i => byteAt buf (p + i)) k ≤ o)
      ∧ (negOffsetFormula (fun i => byteAt buf (p + i)) k ≤ o →
          wrap64 (o + (2 ^ 64 - negOffsetFormula (fun i => byteAt buf (p + i)) k))
            = o - negOffsetFormula (fun i => byteAt buf (p + i)) k) := by
  refine ⟨resolveBase_offsetDelta indexfiles path buf p o k hlen hcont hstop hfit, ?_, ?_⟩
  · generalize negOffsetFormula (fun i => byteAt buf (p + i)) k = v at hfit
    unfold wrap64
    omega
  · generalize negOffsetFormula (fun i => byteAt buf (p + i)) k = v at hfit
    unfold wrap64
    omega

set_option maxRecDepth 100000 in
/-- C6 amended, at the offset-delta of `samplePack` (offset 144, value 132, base 12). -/
theorem offsetDelta_base_earlier_iff_witness :
    (144 < 2 ^ 63 ∧ 1 + 1 < (readBuf samplePack 144).length
      ∧ (∀ i, i < 1 → byteAt (readBuf samplePack 144) (1 + i) &&& 0x80 > 0)
      ∧ byteAt (readBuf samplePack 144) (1 + 1) &&& 0x80 = 0
      ∧ negOffsetFormula (fun i => byteAt (readBuf samplePack 144) (1 + i)) 1 < 2 ^ 63)
    ∧ negOffsetFormula (fun i => byteAt (readBuf samplePack 144) (1 + i)) 1 = 132
    ∧ wrap64 (144 + (2 ^ 64
        - negOffsetFormula (fun i => byteAt (readBuf samplePack 144) (1 + i)) 1)) = 144 - 132 :=
  ⟨⟨by decide, by decide, by decide, by decide, by decide⟩, by decide,
    ((offsetDelta_base_earlier_iff (fun _ => none) (ascii "a.pack") (readBuf samplePack 144)
      1 144 1 (by decide) (by decide) (by decide) (by decide) (by decide)).2.2
        (by decide)).trans (by decide)⟩

theorem isFinalType_70 : isFinalType 0x70 = false := by decide

/-- An identifier-delta whose base identifier is not a key of the paired index ends the
process in `log.Fatal`: no error is returned. -/
theorem readObjectBytes_missing_base (env : Env) (indexfiles : GoString → Option idxFile)
    (path key : GoString) (fuel o : Nat) (sizeonly : Bool) (file : List Byte) (l : Int) (p : Nat)
    (f : idxFile)
    (hfile : env.fs path = some file) (ho : o < file.length) (ho63 : o < 2 ^ 63)
    (htype : byteAt (readBuf file o) 0 &&& 0x70 = 0x70)
    (hhdr : readLenInPackFile (readBuf file o) = .ret (l, p))
    (hkey : idxKey path = some key) (hidx : indexfiles key = some f)
    (hmiss : mapLookup f.offsetValues (((readBuf file o).drop p).take 20) = none) :
    readObjectBytes env indexfiles path (fuel + 1) o sizeonly = .fatal := by
  have hw : wrap64 o = o := wrap64_of_lt (by omega)
  have hp := readLenInPackFile_advance hhdr
  have hlen := readBuf_length file o
  have hid : NewId (((readBuf file o).drop p).take 20) = ((((readBuf file o).drop p).take 20), none) := by
    unfold NewId
    rw [if_pos]
    rw [List.length_take, List.length_drop, hlen]
    omega
  have hbase : resolveBase indexfiles path (readBuf file o) 0x70 p o = .fatal := by
    unfold resolveBase
    rw [if_neg (by decide), if_pos rfl, if_pos (by rw [hlen]; omega)]
    simp only [hid, hkey, hidx, hmiss]
  rw [readObjectBytes]
  simp only [hfile, hw]
  rw [if_neg (by omega), if_neg (by omega)]
  simp only [hhdr, htype, isFinalType_70, hbase]
  rfl

set_option maxRecDepth 100000 in
/-- C7 fails on the code: the identifier-delta at offset 20 of `samplePack2` names the base
`0xAB` twenty times, which is not a key of the index paired with `b.pack`; the call does not
return an error, the process is terminated by `log.Fatal`. -/
theorem readObjectBytes_missing_base_fatal :
    byteAt (readBuf samplePack2 20) 0 &&& 0x70 = 0x70
      ∧ idxKey (ascii "b.pack") = some (ascii "b.idx")
      ∧ (∃ f, sampleIndexfiles (ascii "b.idx") = some f
          ∧ mapLookup f.offsetValues (List.replicate 20 0xAB) = none)
      ∧ readObjectBytes sampleEnv sampleIndexfiles (ascii "b.pack") 5 20 false = .fatal
      ∧ readObjectBytes sampleEnv sampleIndexfiles (ascii "b.pack") 5 20 true = .fatal :=
  ⟨by decide, by decide, ⟨_, rfl, by decide⟩, by decide, by decide⟩

set_option maxRecDepth 100000 in
/-- C10 fails as stated: the blob header at offset 16 of `samplePack2` declares 7 bytes and
the decompressed stream holds 5, so the size-only call returns 7 and the stream of the full
read yields 5 bytes; the commit header at offset 41 declares `-2^63` (its tenth byte is
shifted by 60 bits), and the stream of the full read yields no byte. -/
theorem final_length_ne_stream_count :
    (readObjectBytes sampleEnv sampleIndexfiles (ascii "b.pack") 1 16 true
        = .ret ⟨0x30, 7, none, none, false⟩
      ∧ readObjectBytes sampleEnv sampleIndexfiles (ascii "b.pack") 1 16 false
        = .ret ⟨0x30, 7, some ⟨[1, 2, 3, 0x75, 0xAB], false⟩, none, true⟩
      ∧ ((([1, 2, 3, 0x75, 0xAB] : List Byte).length : Nat) : Int) ≠ 7)
    ∧ (readObjectBytes sampleEnv sampleIndexfiles (ascii "b.pack") 1 41 true
        = .ret ⟨0x10, -9223372036854775808, none, none, false⟩
      ∧ readObjectBytes sampleEnv sampleIndexfiles (ascii "b.pack") 1 41 false
        = .ret ⟨0x10, -9223372036854775808, some ⟨[], false⟩, none, true⟩
      ∧ ((([] : List Byte).length : Nat) : Int) ≠ -9223372036854775808) :=
  ⟨⟨by decide, by decide, by decide⟩, ⟨by decide, by decide, by decide⟩⟩

/-- C10, amended: for an object whose header type is commit, tree, blob or tag, the
size-only call returns the declared length `l` of the header, and the stream of the full
read yields the first `min (max l 0) n` bytes of the decompressed stream, `n` being the
count of bytes that stream holds; the two numbers are equal exactly when `0 <= l <= n`. -/
theorem readObjectBytes_final_length (env : Env) (indexfiles : GoString → Option idxFile)
    (path : GoString) (fuel o : Nat) (file : List Byte) (l : Int) (p : Nat) (s : Stream)
    (hfile : env.fs path = some file) (ho : o < file.length) (ho63 : o + 10 < 2 ^ 63)
    (htype : isFinalType (byteAt (readBuf file o) 0 &&& 0x70) = true)
    (hhdr : readLenInPackFile (readBuf file o) = .ret (l, p))
    (hz : env.readerDecompressed (file.drop (o + p)) = .ok s) :
    readObjectBytes env indexfiles path (fuel + 1) o true
        = .ret ⟨byteAt (readBuf file o) 0 &&& 0x70, l, none, none, false⟩
      ∧ readObjectBytes env indexfiles path (fuel + 1) o false
        = .ret ⟨byteAt (readBuf file o) 0 &&& 0x70, l, some (limitReader s l), none, true⟩
      ∧ (limitReader s l).data = s.data.take l.toNat
      ∧ (((limitReader s l).data.length : Nat) : Int) = min (max l 0) (s.data.length : Nat)
      ∧ ((((limitReader s l).data.length : Nat) : Int) = l ↔ 0 ≤ l ∧ l ≤ (s.data.length : Nat)) := by
  have hw : wrap64 o = o := wrap64_of_lt (by omega)
  have hp := readLenInPackFile_advance hhdr
  have hw2 : wrap64 (o + p) = o + p := wrap64_of_lt (by omega)
  have hlen : (limitReader s l).data.length = min l.toNat s.data.length := by
    unfold limitReader; simp [List.length_take]
  refine ⟨?_, ?_, rfl, ?_, ?_⟩
  · rw [readObjectBytes]
    simp only [hfile, hw]
    rw [if_neg (by omega), if_neg (by omega)]
    simp only [hhdr, htype, if_true, finalObject]
  · rw [readObjectBytes]
    simp only [hfile, hw]
    rw [if_neg (by omega), if_neg (by omega)]
    simp only [hhdr, htype, if_true, finalObject, hw2, hz]
    rw [if_neg (by simp), if_neg (by omega)]
  · rw [hlen]; omega
  · rw [hlen]; omega

set_option maxRecDepth 100000 in
/-- C10 amended, at the blob of `samplePack` (offset 12, declared length 5, five bytes in
the decompressed stream). -/
theorem readObjectBytes_final_length_witness :
    (sampleEnv.fs (ascii "a.pack") = some samplePack ∧ 12 < samplePack.length
      ∧ 12 + 10 < 2 ^ 63
      ∧ isFinalType (byteAt (readBuf samplePack 12) 0 &&& 0x70) = true
      ∧ readLenInPackFile (readBuf samplePack 12) = .ret (5, 1)
      ∧ sampleEnv.readerDecompressed (samplePack.drop (12 + 1)) = .ok ⟨[1, 2, 3, 0, 0], false⟩)
    ∧ readObjectBytes sampleEnv (fun _ => none) (ascii "a.pack") 1 12 true
        = .ret ⟨0x30, 5, none, none, false⟩
    ∧ readObjectBytes sampleEnv (fun _ => none) (ascii "a.pack") 1 12 false
        = .ret ⟨0x30, 5, some ⟨[1, 2, 3, 0, 0], false⟩, none, true⟩ :=
  ⟨⟨by decide, by decide, by decide, by decide, by decide, by rfl⟩,
    (readObjectBytes_final_length sampleEnv (fun _ => none) (ascii "a.pack") 0 12 samplePack 5 1
      ⟨[1, 2, 3, 0, 0], false⟩ (by decide) (by decide) (by decide) (by decide) (by decide)
      (by rfl)).1.trans (by decide),
    (readObjectBytes_final_length sampleEnv (fun _ => none) (ascii "a.pack") 0 12 samplePack 5 1
      ⟨[1, 2, 3, 0, 0], false⟩ (by decide) (by decide) (by decide) (by decide) (by decide)
      (by rfl)).2.1.trans (by decide)⟩

/-! ### `readIdxFile`: the loops -/

theorem byteAt_lt (buf : List Byte) (i : Nat) : byteAt buf i < 256 := by
  unfold byteAt; exact (buf.getD i 0).isLt

theorem be32_eq (idx : List Byte) (pos : Nat) (h : pos + 4 ≤ idx.length) :
    be32 idx pos = some (be32At idx pos) := by
  obtain ⟨a, ha, hav⟩ := get_of_lt idx pos (by omega)
  obtain ⟨b, hb, hbv⟩ := get_of_lt idx (pos + 1) (by omega)
  obtain ⟨c, hc, hcv⟩ := get_of_lt idx (pos + 2) (by omega)
  obtain ⟨d, hd, hdv⟩ := get_of_lt idx (pos + 3) (by omega)
  unfold be32 be32At
  rw [ha, hb, hc, hd, hav, hbv, hcv, hdv]
  simp only [Nat.shiftLeft_eq]
  congr 1
  apply Nat.mod_eq_of_lt
  have := a.isLt; have := b.isLt; have := c.isLt; have := d.isLt
  omega

theorem be32_none (idx : List Byte) (pos : Nat) (h : idx.length < pos + 4) :
    be32 idx pos = none := by
  unfold be32
  split
  · rename_i hd
    rw [List.getElem?_eq_none (by omega)] at hd
    simp at hd
  · rfl

theorem be64_eq (idx : List Byte) (pos : Nat) (h : pos + 8 ≤ idx.length) :
    be64 idx pos = some (be64At idx pos) := by
  obtain ⟨a, ha, hav⟩ := get_of_lt idx pos (by omega)
  obtain ⟨b, hb, hbv⟩ := get_of_lt idx (pos + 1) (by omega)
  obtain ⟨c, hc, hcv⟩ := get_of_lt idx (pos + 2) (by omega)
  obtain ⟨d, hd, hdv⟩ := get_of_lt idx (pos + 3) (by omega)
  obtain ⟨e, he, hev⟩ := get_of_lt idx (pos + 4) (by omega)
  obtain ⟨f, hf, hfv⟩ := get_of_lt idx (pos + 5) (by omega)
  obtain ⟨g, hg, hgv⟩ := get_of_lt idx (pos + 6) (by omega)
  obtain ⟨i, hi, hiv⟩ := get_of_lt idx (pos + 7) (by omega)
  unfold be64 be64At
  rw [ha, hb, hc, hd, he, hf, hg, hi, hav, hbv, hcv, hdv, hev, hfv, hgv, hiv]
  simp only [Nat.shiftLeft_eq]
  congr 1
  apply Nat.mod_eq_of_lt
  have := a.isLt; have := b.isLt; have := c.isLt; have := d.isLt
  have := e.isLt; have := f.isLt; have := g.isLt; have := i.isLt
  omega

theorem fanoutLoop_eq (idx : List Byte) :
    ∀ (n pos : Nat) (acc : List Nat), pos + 4 * n ≤ idx.length →
      fanoutLoop idx n pos acc
        = some (acc ++ (List.range n).map (fun i => be32At idx (pos + 4 * i)), pos + 4 * n) := by
  intro n
  induction n with
  | zero => intro pos acc _; simp [fanoutLoop]
  | succ n ih =>
    intro pos acc h
    rw [fanoutLoop, be32_eq idx pos (by omega)]
    simp only
    rw [ih (pos + 4) _ (by omega), List.range_succ_eq_map]
    have hm : (List.range n).map (fun i => be32At idx (pos + 4 + 4 * i))
        = (List.range n).map ((fun i => be32At idx (pos + 4 * i)) ∘ Nat.succ) := by
      apply List.map_congr_left
      intro i _
      simp only [Function.comp, Nat.succ_eq_add_one]
      rw [show pos + 4 + 4 * i = pos + 4 * (i + 1) by omega]
    have hx : (acc ++ [be32At idx pos]) ++ (List.range n).map (fun i => be32At idx (pos + 4 + 4 * i))
        = acc ++ List.map (fun i => be32At idx (pos + 4 * i)) (0 :: List.map Nat.succ (List.range n)) := by
      rw [hm]
      simp only [List.map_cons, List.map_map, List.append_assoc, List.singleton_append,
        Nat.mul_zero, Nat.add_zero]
    have hy : pos + 4 + 4 * n = pos + 4 * (n + 1) := by omega
    rw [hx, hy]

theorem fanoutLoop_none (idx : List Byte) :
    ∀ (n pos : Nat) (acc : List Nat), idx.length < pos + 4 * (n + 1) →
      fanoutLoop idx (n + 1) pos acc = none := by
  intro n
  induction n with
  | zero =>
    intro pos acc h
    rw [fanoutLoop, be32_none idx pos (by omega)]
  | succ n ih =>
    intro pos acc h
    rw [fanoutLoop]
    split
    · rfl
    · exact ih (pos + 4) _ (by omega)

theorem readBytes_eq (idx : List Byte) :
    ∀ (n pos : Nat), pos + n ≤ idx.length →
      readBytes idx pos n = some ((idx.drop pos).take n) := by
  intro n
  induction n with
  | zero => intro pos _; simp [readBytes]
  | succ n ih =>
    intro pos h
    have hlt : pos < idx.length := by omega
    rw [readBytes, List.getElem?_eq_getElem hlt]
    simp only
    rw [ih (pos + 1) (by omega), List.drop_eq_getElem_cons hlt, List.take_succ_cons]

theorem readBytes_none (idx : List Byte) :
    ∀ (n pos : Nat), idx.length < pos + (n + 1) → readBytes idx pos (n + 1) = none := by
  intro n
  induction n with
  | zero =>
    intro pos h
    rw [readBytes, List.getElem?_eq_none (by omega)]
  | succ n ih =>
    intro pos h
    rw [readBytes]
    split
    · rfl
    · rw [ih (pos + 1) (by omega)]

theorem idsLoop_eq (idx : List Byte) :
    ∀ (n pos : Nat) (acc : List sha1), pos + 20 * n ≤ idx.length →
      idsLoop idx n pos acc
        = some (acc ++ (List.range n).map (fun i => (idx.drop (pos + 20 * i)).take 20),
            pos + 20 * n) := by
  intro n
  induction n with
  | zero => intro pos acc _; simp [idsLoop]
  | succ n ih =>
    intro pos acc h
    rw [idsLoop, readBytes_eq idx 20 pos (by omega)]
    simp only
    rw [ih (pos + 20) _ (by omega), List.range_succ_eq_map]
    have hm : (List.range n).map (fun i => (idx.drop (pos + 20 + 20 * i)).take 20)
        = (List.range n).map ((fun i => (idx.drop (pos + 20 * i)).take 20) ∘ Nat.succ) := by
      apply List.map_congr_left
      intro i _
      simp only [Function.comp, Nat.succ_eq_add_one]
      rw [show pos + 20 + 20 * i = pos + 20 * (i + 1) by omega]
    have hy : pos + 20 + 20 * n = pos + 20 * (n + 1) := by omega
    rw [hm, hy]
    simp only [List.map_cons, List.map_map, List.append_assoc, List.singleton_append,
      Nat.mul_zero, Nat.add_zero]

theorem idsLoop_none (idx : List Byte) :
    ∀ (n pos : Nat) (acc : List sha1), idx.length < pos + 20 * (n + 1) →
      idsLoop idx (n + 1) pos acc = none := by
  intro n
  induction n with
  | zero =>
    intro pos acc h
    rw [idsLoop, readBytes_none idx 19 pos (by omega)]
  | succ n ih =>
    intro pos acc h
    rw [idsLoop]
    split
    · rfl
    · exact ih (pos + 20) _ (by omega)

theorem offsetValues8Loop_eq (idx : List Byte) :
    ∀ (n pos : Nat) (acc : List Nat), pos + 8 * n ≤ idx.length →
      offsetValues8Loop idx n pos acc
        = some (acc ++ (List.range n).map (fun i => be64At idx (pos + 8 * i))) := by
  intro n
  induction n with
  | zero => intro pos acc _; simp [offsetValues8Loop]
  | succ n ih =>
    intro pos acc h
    rw [offsetValues8Loop, be64_eq idx pos (by omega)]
    simp only
    rw [ih (pos + 8) _ (by omega), List.range_succ_eq_map]
    have hm : (List.range n).map (fun i => be64At idx (pos + 8 + 8 * i))
        = (List.range n).map ((fun i => be64At idx (pos + 8 * i)) ∘ Nat.succ) := by
      apply List.map_congr_left
      intro i _
      simp only [Function.comp, Nat.succ_eq_add_one]
      rw [show pos + 8 + 8 * i = pos + 8 * (i + 1) by omega]
    rw [hm]
    simp only [List.map_cons, List.map_map, List.append_assoc, List.singleton_append,
      Nat.mul_zero, Nat.add_zero]

/-! ### The offset map -/

theorem mapLookup_filter_ne (m : OffsetMap) (k k' : sha1) (h : k' ≠ k) :
    mapLookup (m.filter (fun e => decide (e.1 ≠ k))) k' = mapLookup m k' := by
  unfold mapLookup
  induction m with
  | nil => rfl
  | cons e m ih =>
    by_cases hek : e.1 = k
    · have hek' : ¬ e.1 = k' := fun h' => h (h'.symm.trans hek)
      rw [List.filter_cons_of_neg (by simpa using hek), List.find?_cons_of_neg _ (by simpa using hek')]
      exact ih
    · rw [List.filter_cons_of_pos (by simpa using hek)]
      by_cases hek' : e.1 = k'
      · rw [List.find?_cons_of_pos _ (by simpa using hek'), List.find?_cons_of_pos _ (by simpa using hek')]
      · rw [List.find?_cons_of_neg _ (by simpa using hek'), List.find?_cons_of_neg _ (by simpa using hek')]
        exact ih

theorem mapLookup_insert_self (m : OffsetMap) (k : sha1) (v : Nat) :
    mapLookup (mapInsert m k v) k = some v := by
  unfold mapLookup mapInsert
  rw [List.find?_cons_of_pos _ (by simp)]
  rfl

theorem mapLookup_insert_ne (m : OffsetMap) (k k' : sha1) (v : Nat) (h : k' ≠ k) :
    mapLookup (mapInsert m k v) k' = mapLookup m k' := by
  have h1 := mapLookup_filter_ne m k k' h
  unfold mapLookup mapInsert at *
  rw [List.find?_cons_of_neg _ (by simpa using fun h' => h h'.symm)]
  exact h1

theorem mem_keys_insert (m : OffsetMap) (k k' : sha1) (v : Nat) :
    k' ∈ (mapInsert m k v).map Prod.fst ↔ k' = k ∨ k' ∈ m.map Prod.fst := by
  unfold mapInsert
  simp only [List.map_cons, List.mem_cons, List.mem_map, List.mem_filter, decide_eq_true_eq]
  constructor
  · rintro (h | ⟨e, ⟨he, _⟩, rfl⟩)
    · exact Or.inl h
    · exact Or.inr ⟨e, he, rfl⟩
  · rintro (h | ⟨e, he, rfl⟩)
    · exact Or.inl h
    · by_cases hk : e.1 = k
      · exact Or.inl hk
      · exact Or.inr ⟨e, ⟨he, hk⟩, rfl⟩

theorem length_insert_new (m : OffsetMap) (k : sha1) (v : Nat) (h : k ∉ m.map Prod.fst) :
    (mapInsert m k v).length = m.length + 1 := by
  unfold mapInsert
  rw [List.length_cons, List.filter_eq_self.2]
  intro e he
  simp only [decide_eq_true_eq]
  intro hk
  exact h (List.mem_map.2 ⟨e, he, hk⟩)

theorem insertAll_lookup_other (key : Nat → sha1) (val : Nat → Nat) (k : sha1) :
    ∀ (js : List Nat) (m : OffsetMap), k ∉ js.map key →
      mapLookup (js.foldl (fun m j => mapInsert m (key j) (val j)) m) k = mapLookup m k := by
  intro js
  induction js with
  | nil => intro m _; rfl
  | cons j js ih =>
    intro m h
    simp only [List.map_cons, List.mem_cons, not_or] at h
    rw [List.foldl_cons, ih _ h.2, mapLookup_insert_ne _ _ _ _ h.1]

theorem insertAll_lookup (key : Nat → sha1) (val : Nat → Nat) :
    ∀ (js : List Nat) (m : OffsetMap) (j : Nat), j ∈ js → (js.map key).Nodup →
      mapLookup (js.foldl (fun m j => mapInsert m (key j) (val j)) m) (key j) = some (val j) := by
  intro js
  induction js with
  | nil => intro m j h; simp at h
  | cons j0 js ih =>
    intro m j hj hnd
    simp only [List.map_cons, List.nodup_cons] at hnd
    rw [List.foldl_cons]
    rcases List.mem_cons.1 hj with rfl | hj'
    · rw [insertAll_lookup_other key val _ js _ hnd.1, mapLookup_insert_self]
    · exact ih _ j hj' hnd.2

theorem insertAll_mem_keys (key : Nat → sha1) (val : Nat → Nat) (k : sha1) :
    ∀ (js : List Nat) (m : OffsetMap),
      k ∈ (js.foldl (fun m j => mapInsert m (key j) (val j)) m).map Prod.fst
        ↔ k ∈ m.map Prod.fst ∨ k ∈ js.map key := by
  intro js
  induction js with
  | nil => intro m; simp
  | cons j js ih =>
    intro m
    rw [List.foldl_cons, ih, mem_keys_insert, List.map_cons, List.mem_cons]
    tauto

theorem insertAll_length (key : Nat → sha1) (val : Nat → Nat) :
    ∀ (js : List Nat) (m : OffsetMap), (js.map key).Nodup →
      (∀ j, j ∈ js → key j ∉ m.map Prod.fst) →
      (js.foldl (fun m j => mapInsert m (key j) (val j)) m).length = m.length + js.length := by
  intro js
  induction js with
  | nil => intro m _ _; rfl
  | cons j js ih =>
    intro m hnd hnew
    simp only [List.map_cons, List.nodup_cons] at hnd
    rw [List.foldl_cons, ih _ hnd.2, length_insert_new _ _ _ (hnew j (List.mem_cons_self _ _)),
      List.length_cons]
    · omega
    · intro j' hj' hmem
      rcases (mem_keys_insert _ _ _ _).1 hmem with h | h
      · exact hnd.1 (h ▸ List.mem_map.2 ⟨j', hj', rfl⟩)
      · exact hnew j' (List.mem_cons_of_mem _ hj') h

theorem offsetsLoop_eq (idx : List Byte) (ids : List sha1) (o8 : List Nat) (pos0 : Nat) :
    ∀ (n i : Nat) (m : OffsetMap), pos0 + 4 * (i + n) ≤ idx.length → i + n ≤ ids.length →
      (∀ j, i ≤ j → j < i + n → be32At idx (pos0 + 4 * j) &&& 0x80000000 = 0x80000000 →
        be32At idx (pos0 + 4 * j) &&& 0x7FFFFFFF < o8.length) →
      offsetsLoop idx ids o8 n i (pos0 + 4 * i) m
        = some ((List.range' i n).foldl
            (fun m j => mapInsert m (ids.getD j []) (storedOffset idx o8 pos0 j)) m) := by
  intro n
  induction n with
  | zero => intro i m _ _ _; simp [offsetsLoop]
  | succ n ih =>
    intro i m hlen hids hidx
    have hrec := fun m' => ih (i + 1) m' (by omega) (by omega)
      (fun j h1 h2 => hidx j (by omega) (by omega))
    rw [show pos0 + 4 * (i + 1) = pos0 + 4 * i + 4 by omega] at hrec
    have hid : ids[i]? = some (ids.getD i []) := by
      rw [List.getD_eq_getElem?_getD, List.getElem?_eq_getElem (by omega)]; rfl
    rw [offsetsLoop, be32_eq idx _ (by omega)]
    simp only [hid]
    rw [List.range'_succ, List.foldl_cons]
    by_cases hbit : be32At idx (pos0 + 4 * i) &&& 0x80000000 = 0x80000000
    · have hlt := hidx i (le_refl _) (by omega) hbit
      have ho8 : o8[be32At idx (pos0 + 4 * i) &&& 0x7FFFFFFF]?
          = some (o8.getD (be32At idx (pos0 + 4 * i) &&& 0x7FFFFFFF) 0) := by
        rw [List.getD_eq_getElem?_getD, List.getElem?_eq_getElem hlt]; rfl
      rw [if_pos hbit]
      simp only [ho8]
      rw [hrec]
      unfold storedOffset
      rw [if_pos hbit]
    · rw [if_neg hbit, hrec]
      unfold storedOffset
      rw [if_neg hbit]

theorem offsetsLoop_none_short (idx : List Byte) (ids : List sha1) (o8 : List Nat) :
    ∀ (n i pos : Nat) (m : OffsetMap), idx.length < pos + 4 * (n + 1) →
      offsetsLoop idx ids o8 (n + 1) i pos m = none := by
  intro n
  induction n with
  | zero =>
    intro i pos m h
    rw [offsetsLoop, be32_none idx pos (by omega)]
  | succ n ih =>
    intro i pos m h
    rw [offsetsLoop]
    split
    · rfl
    · split
      · rfl
      · split
        · split
          · rfl
          · exact ih _ _ _ (by omega)
        · exact ih _ _ _ (by omega)

theorem foldl_congr_mem {α : Type} (f g : α → Nat → α) :
    ∀ (js : List Nat) (m : α), (∀ m j, j ∈ js → f m j = g m j) →
      js.foldl f m = js.foldl g m := by
  intro js
  induction js with
  | nil => intro m _; rfl
  | cons j js ih =>
    intro m h
    rw [List.foldl_cons, List.foldl_cons, h m j (List.mem_cons_self _ _)]
    exact ih _ (fun m j hj => h m j (List.mem_cons_of_mem _ hj))

theorem getD_map_range {α : Type} (f : Nat → α) (n j : Nat) (d : α) (h : j < n) :
    ((List.range n).map f).getD j d = f j := by
  rw [List.getD_eq_getElem?_getD, List.getElem?_map, List.getElem?_range h]
  rfl

theorem numOffsets8_bound (idx : List Byte) (h : 0 < numOffsets8 idx) :
    1032 + 28 * numObjectsOf idx + 8 * numOffsets8 idx + 40 ≤ idx.length := by
  unfold numOffsets8 at *
  omega

theorem numOffsets8_eq_zero (idx : List Byte)
    (h : ¬ ((idx.length : Int) - 258 * 4 - 28 * (numObjectsOf idx : Nat) - 40) > 0) :
    numOffsets8 idx = 0 := by
  unfold numOffsets8
  omega

theorem readPackHeader_ok (env : Env) (path packpath : GoString) (m : OffsetMap)
    (pack : List Byte) (hpack : env.fs packpath = some pack) (hne : pack ≠ [])
    (hmagic : (ascii "PACK").isPrefixOf (packVersionBuf pack) = true) :
    readPackHeader env path packpath m
      = .ret (.ok ⟨path, packpath, be32At (packVersionBuf pack) 4, m⟩) := by
  have hlen : (packVersionBuf pack).length = 8 := by
    unfold packVersionBuf
    rw [List.length_append, List.length_replicate]
    have : (pack.take 8).length ≤ 8 := by rw [List.length_take]; exact Nat.min_le_left _ _
    omega
  unfold readPackHeader
  simp only [hpack]
  rw [if_neg hne, if_pos hmagic, be32_eq _ 4 (by omega)]

/-- The run of `readIdxFile` on an index that is long enough for its tables and whose
indirect entries lie inside the secondary table. -/
theorem readIdxFile_to_pack (env : Env) (path : GoString) (idx : List Byte)
    (hpath : 3 ≤ path.length) (hidx : env.fs path = some idx)
    (hmagic : ([255, 0x74, 0x4F, 0x63] : List Byte).isPrefixOf idx = true)
    (hlen : 1032 + 28 * numObjectsOf idx ≤ idx.length)
    (hind : ∀ i, i < numObjectsOf idx → offsetEntry idx i &&& 0x80000000 = 0x80000000 →
      offsetEntry idx i &&& 0x7FFFFFFF < numOffsets8 idx) :
    readIdxFile env path
      = readPackHeader env path (path.take (path.length - 3) ++ ascii "pack")
          (idxOffsetMap idx) := by
  have hfan := fanoutLoop_eq idx 256 8 [] (by omega)
  have hN : ((List.range 256).map (fun i => be32At idx (8 + 4 * i))).getD 255 0
      = numObjectsOf idx := by
    rw [getD_map_range _ 256 255 0 (by omega)]; rfl
  have hids := idsLoop_eq idx (numObjectsOf idx) (8 + 4 * 256) [] (by omega)
  unfold readIdxFile packPath
  rw [if_pos hpath]
  simp only [hidx, hmagic, not_true_eq_false, if_false, hfan, List.nil_append, hN, hids]
  -- the secondary table
  have ho8 : (if ((idx.length : Int) - 258 * 4 - 28 * (numObjectsOf idx : Nat) - 40) > 0 then
        offsetValues8Loop idx
          (((idx.length : Int) - 258 * 4 - 28 * (numObjectsOf idx : Nat) - 40) / 8).toNat
          (8 + 4 * 256 + 20 * numObjectsOf idx + 8 * numObjectsOf idx) []
      else some [])
      = some ((List.range (numOffsets8 idx)).map
          (fun i => be64At idx (1032 + 28 * numObjectsOf idx + 8 * i))) := by
    split
    · rename_i hpos
      have hb : 1032 + 28 * numObjectsOf idx + 8 * numOffsets8 idx ≤ idx.length := by
        unfold numOffsets8; omega
      have := offsetValues8Loop_eq idx (numOffsets8 idx) (1032 + 28 * numObjectsOf idx) [] hb
      rw [show 8 + 4 * 256 + 20 * numObjectsOf idx + 8 * numObjectsOf idx
        = 1032 + 28 * numObjectsOf idx by omega]
      exact this
    · rename_i hpos
      rw [numOffsets8_eq_zero idx hpos]; rfl
  rw [ho8]
  simp only
  have hloop := offsetsLoop_eq idx
    ((List.range (numObjectsOf idx)).map (fun i => (idx.drop (8 + 4 * 256 + 20 * i)).take 20))
    ((List.range (numOffsets8 idx)).map (fun i => be64At idx (1032 + 28 * numObjectsOf idx + 8 * i)))
    (258 * 4 + 24 * numObjectsOf idx) (numObjectsOf idx) 0 [] (by omega)
    (by rw [List.length_map, List.length_range]; omega)
    (by
      intro j _ hj hbit
      rw [List.length_map, List.length_range]
      exact hind j (by omega) hbit)
  simp only [Nat.mul_zero, Nat.add_zero, Nat.reduceMul, Nat.reduceAdd] at hloop ⊢
  rw [hloop]
  simp only
  congr 1
  unfold idxOffsetMap
  apply foldl_congr_mem
  intro m j hj
  have hjN : j < numObjectsOf idx := by
    rw [List.mem_range'_1] at hj; omega
  rw [getD_map_range _ _ j [] hjN]
  congr 1
  unfold storedOffset resolvedOffset
  by_cases hbit : offsetEntry idx j &&& 0x80000000 = 0x80000000
  · have hlt := hind j hjN hbit
    unfold offsetEntry at hbit hlt ⊢
    rw [if_pos hbit, if_pos hbit, getD_map_range _ _ _ 0 hlt]
  · unfold offsetEntry at hbit ⊢
    rw [if_neg hbit, if_neg hbit]

/-- The run of `readIdxFile` on such an index when the pack file is readable and starts
with the `PACK` magic. -/
theorem readIdxFile_ok (env : Env) (path : GoString) (idx pack : List Byte)
    (hpath : 3 ≤ path.length) (hidx : env.fs path = some idx)
    (hmagic : ([255, 0x74, 0x4F, 0x63] : List Byte).isPrefixOf idx = true)
    (hlen : 1032 + 28 * numObjectsOf idx ≤ idx.length)
    (hind : ∀ i, i < numObjectsOf idx → offsetEntry idx i &&& 0x80000000 = 0x80000000 →
      offsetEntry idx i &&& 0x7FFFFFFF < numOffsets8 idx)
    (hpack : env.fs (path.take (path.length - 3) ++ ascii "pack") = some pack)
    (hne : pack ≠ []) (hpmagic : (ascii "PACK").isPrefixOf (packVersionBuf pack) = true) :
    readIdxFile env path
      = .ret (.ok ⟨path, path.take (path.length - 3) ++ ascii "pack",
          be32At (packVersionBuf pack) 4, idxOffsetMap idx⟩) := by
  rw [readIdxFile_to_pack env path idx hpath hidx hmagic hlen hind,
    readPackHeader_ok env path _ _ pack hpack hne hpmagic]

/-! ### `readIdxFile`: the claims -/

theorem isPrefixOf_eq_false_of_take_ne (l idx : List Byte) (h : idx.take l.length ≠ l) :
    l.isPrefixOf idx = false := by
  cases hp : l.isPrefixOf idx with
  | false => rfl
  | true =>
    exfalso
    apply h
    have := List.isPrefixOf_iff_prefix.1 hp
    exact (List.prefix_iff_eq_take.1 this).symm

/-- C8: for every content of an index file, of any length, whose first four bytes are not
`0xFF 't' 'O' 'c'`, `readIdxFile` returns the error `Not version 2 index file` and no
index; it does not panic, no byte of the content is indexed. -/
theorem readIdxFile_bad_magic (env : Env) (path : GoString) (idx : List Byte)
    (hpath : 3 ≤ path.length) (hidx : env.fs path = some idx)
    (hmagic : idx.take 4 ≠ [255, 0x74, 0x4F, 0x63]) :
    readIdxFile env path = .ret (.error "Not version 2 index file") := by
  have hp := isPrefixOf_eq_false_of_take_ne [255, 0x74, 0x4F, 0x63] idx hmagic
  unfold readIdxFile packPath
  rw [if_pos hpath]
  simp only [hidx, hp]
  rfl

/-- C8, at an index file of the three bytes `0xFF 't' 'O'`. -/
theorem readIdxFile_bad_magic_witness :
    (3 ≤ (ascii "f.idx").length ∧ sampleEnv.fs (ascii "f.idx") = some [255, 0x74, 0x4F]
      ∧ ([255, 0x74, 0x4F] : List Byte).take 4 ≠ [255, 0x74, 0x4F, 0x63])
    ∧ readIdxFile sampleEnv (ascii "f.idx") = .ret (.error "Not version 2 index file") :=
  ⟨⟨by decide, by decide, by decide⟩,
    readIdxFile_bad_magic sampleEnv (ascii "f.idx") [255, 0x74, 0x4F] (by decide) (by decide)
      (by decide)⟩

theorem idxOffsetMap_lookup (idx : List Byte)
    (hnd : ((List.range (numObjectsOf idx)).map (idAt idx)).Nodup) (i : Nat)
    (hi : i < numObjectsOf idx) :
    mapLookup (idxOffsetMap idx) (idAt idx i) = some (resolvedOffset idx i) := by
  unfold idxOffsetMap
  rw [List.range_eq_range'] at hnd
  exact insertAll_lookup (idAt idx) (resolvedOffset idx) _ [] i
    (by rw [List.mem_range'_1]; omega) hnd

theorem idxOffsetMap_length (idx : List Byte)
    (hnd : ((List.range (numObjectsOf idx)).map (idAt idx)).Nodup) :
    (idxOffsetMap idx).length = numObjectsOf idx := by
  unfold idxOffsetMap
  rw [List.range_eq_range'] at hnd
  rw [insertAll_length (idAt idx) (resolvedOffset idx) _ [] hnd (by intro j _; simp)]
  simp

theorem idxOffsetMap_keys (idx : List Byte) (k : sha1) :
    k ∈ (idxOffsetMap idx).map Prod.fst ↔ ∃ i, i < numObjectsOf idx ∧ k = idAt idx i := by
  unfold idxOffsetMap
  rw [insertAll_mem_keys (idAt idx) (resolvedOffset idx) k]
  simp only [List.map_nil, List.not_mem_nil, false_or, List.mem_map, List.mem_range'_1]
  constructor
  · rintro ⟨j, hj, rfl⟩; exact ⟨j, by omega, rfl⟩
  · rintro ⟨j, hj, rfl⟩; exact ⟨j, by omega, rfl⟩

theorem nodup_keys_insert (m : OffsetMap) (k : sha1) (v : Nat) (h : (m.map Prod.fst).Nodup) :
    ((mapInsert m k v).map Prod.fst).Nodup := by
  unfold mapInsert
  rw [List.map_cons, List.nodup_cons]
  constructor
  · simp only [List.mem_map, List.mem_filter, decide_eq_true_eq, not_exists, not_and]
    intro e he hk
    exact he.2 hk
  · exact (List.Nodup.sublist (List.Sublist.map _ (List.filter_sublist _)) h)

theorem insertAll_nodup (key : Nat → sha1) (val : Nat → Nat) :
    ∀ (js : List Nat) (m : OffsetMap), (m.map Prod.fst).Nodup →
      ((js.foldl (fun m j => mapInsert m (key j) (val j)) m).map Prod.fst).Nodup := by
  intro js
  induction js with
  | nil => intro m h; exact h
  | cons j js ih =>
    intro m h
    rw [List.foldl_cons]
    exact ih _ (nodup_keys_insert m _ _ h)

/-- The map built from an index never holds a key twice. -/
theorem idxOffsetMap_nodup (idx : List Byte) : ((idxOffsetMap idx).map Prod.fst).Nodup := by
  unfold idxOffsetMap
  exact insertAll_nodup _ _ _ [] (by simp)
/-- C3: for a well-formed version-2 index (long enough for its tables, indirect entries
inside the secondary table, readable pack with the `PACK` magic) with `N` distinct
identifiers, `readIdxFile` returns an index whose map holds, for the `i`-th identifier
(the 20 bytes at `1032 + 20 * i`), the low 31 bits of the big-endian entry `e_i` at
`1032 + 24 * N + 4 * i` when the high bit of `e_i` is clear, and the big-endian 64-bit value
at `1032 + 28 * N + 8 * (e_i & 0x7FFFFFFF)` when it is set. -/
theorem readIdxFile_offset (env : Env) (path : GoString) (idx pack : List Byte) (i : Nat)
    (hpath : 3 ≤ path.length) (hidx : env.fs path = some idx)
    (hmagic : ([255, 0x74, 0x4F, 0x63] : List Byte).isPrefixOf idx = true)
    (hlen : 1032 + 28 * numObjectsOf idx ≤ idx.length)
    (hind : ∀ j, j < numObjectsOf idx → offsetEntry idx j &&& 0x80000000 = 0x80000000 →
      offsetEntry idx j &&& 0x7FFFFFFF < numOffsets8 idx)
    (hpack : env.fs (path.take (path.length - 3) ++ ascii "pack") = some pack)
    (hne : pack ≠ []) (hpmagic : (ascii "PACK").isPrefixOf (packVersionBuf pack) = true)
    (hnd : ((List.range (numObjectsOf idx)).map (idAt idx)).Nodup)
    (hi : i < numObjectsOf idx) :
    ∃ ifile, readIdxFile env path = .ret (.ok ifile)
      ∧ (offsetEntry idx i &&& 0x80000000 = 0 →
          mapLookup ifile.offsetValues ((idx.drop (1032 + 20 * i)).take 20)
            = some (offsetEntry idx i &&& 0x7FFFFFFF))
      ∧ (offsetEntry idx i &&& 0x80000000 = 0x80000000 →
          mapLookup ifile.offsetValues ((idx.drop (1032 + 20 * i)).take 20)
            = some (be64At idx
                (1032 + 28 * numObjectsOf idx + 8 * (offsetEntry idx i &&& 0x7FFFFFFF)))) := by
  refine ⟨_, readIdxFile_ok env path idx pack hpath hidx hmagic hlen hind hpack hne hpmagic, ?_, ?_⟩
  · intro hbit
    have h := idxOffsetMap_lookup idx hnd i hi
    unfold resolvedOffset at h
    rw [if_neg (by rw [hbit]; decide)] at h
    exact h
  · intro hbit
    have h := idxOffsetMap_lookup idx hnd i hi
    unfold resolvedOffset at h
    rw [if_pos hbit] at h
    exact h

/-- C4: for a well-formed version-2 index with distinct identifiers, the map that
`readIdxFile` builds has exactly `N` entries, `N` being the big-endian value of the bytes
1028 .. 1031 (the 256th fan-out entry), and its keys are exactly the `N` identifiers of
20 bytes read from the file. -/
theorem readIdxFile_entries (env : Env) (path : GoString) (idx pack : List Byte)
    (hpath : 3 ≤ path.length) (hidx : env.fs path = some idx)
    (hmagic : ([255, 0x74, 0x4F, 0x63] : List Byte).isPrefixOf idx = true)
    (hlen : 1032 + 28 * numObjectsOf idx ≤ idx.length)
    (hind : ∀ j, j < numObjectsOf idx → offsetEntry idx j &&& 0x80000000 = 0x80000000 →
      offsetEntry idx j &&& 0x7FFFFFFF < numOffsets8 idx)
    (hpack : env.fs (path.take (path.length - 3) ++ ascii "pack") = some pack)
    (hne : pack ≠ []) (hpmagic : (ascii "PACK").isPrefixOf (packVersionBuf pack) = true)
    (hnd : ((List.range (numObjectsOf idx)).map (idAt idx)).Nodup) :
    ∃ ifile, readIdxFile env path = .ret (.ok ifile)
      ∧ ifile.offsetValues.length = be32At idx 1028
      ∧ (ifile.offsetValues.map Prod.fst).Nodup
      ∧ ∀ k, k ∈ ifile.offsetValues.map Prod.fst
          ↔ ∃ i, i < be32At idx 1028 ∧ k = (idx.drop (1032 + 20 * i)).take 20 := by
  refine ⟨_, readIdxFile_ok env path idx pack hpath hidx hmagic hlen hind hpack hne hpmagic,
    idxOffsetMap_length idx hnd, ?_, idxOffsetMap_keys idx⟩
  exact idxOffsetMap_nodup idx

/-- An index that starts with the magic and is shorter than its fan-out table, its
identifiers and its two tables of 4-byte entries makes `readIdxFile` panic. -/
theorem readIdxFile_short_panic (env : Env) (path : GoString) (idx : List Byte)
    (hpath : 3 ≤ path.length) (hidx : env.fs path = some idx)
    (hmagic : ([255, 0x74, 0x4F, 0x63] : List Byte).isPrefixOf idx = true)
    (hshort : idx.length < 1032 ∨ idx.length < 1032 + 28 * numObjectsOf idx) :
    readIdxFile env path = .panic := by
  unfold readIdxFile packPath
  rw [if_pos hpath]
  simp only [hidx, hmagic, not_true_eq_false, if_false]
  by_cases h1032 : idx.length < 1032
  · rw [fanoutLoop_none idx 255 8 [] (by omega)]
  · have hshort' : idx.length < 1032 + 28 * numObjectsOf idx := by omega
    have hfan := fanoutLoop_eq idx 256 8 [] (by omega)
    have hN : ((List.range 256).map (fun i => be32At idx (8 + 4 * i))).getD 255 0
        = numObjectsOf idx := by
      rw [getD_map_range _ 256 255 0 (by omega)]; rfl
    simp only [hfan, List.nil_append, hN]
    obtain ⟨n, hn⟩ : ∃ n, numObjectsOf idx = n + 1 := ⟨numObjectsOf idx - 1, by omega⟩
    by_cases hids : idx.length < 1032 + 20 * numObjectsOf idx
    · rw [hn, idsLoop_none idx n (8 + 4 * 256) [] (by omega)]
    · rw [idsLoop_eq idx (numObjectsOf idx) (8 + 4 * 256) [] (by omega)]
      simp only
      rw [if_neg (by omega)]
      simp only
      rw [hn, offsetsLoop_none_short idx _ _ n 0 _ [] (by omega)]

set_option maxRecDepth 100000 in
/-- C3, at `sampleIdx`: the second identifier has the entry `0x80000000`, and its offset is
entry 0 of the secondary table, `2^32 + 9`. -/
theorem readIdxFile_offset_witness :
    (3 ≤ (ascii "a.idx").length ∧ sampleEnv.fs (ascii "a.idx") = some sampleIdx
      ∧ ([255, 0x74, 0x4F, 0x63] : List Byte).isPrefixOf sampleIdx = true
      ∧ 1032 + 28 * numObjectsOf sampleIdx ≤ sampleIdx.length
      ∧ (∀ j, j < numObjectsOf sampleIdx → offsetEntry sampleIdx j &&& 0x80000000 = 0x80000000 →
          offsetEntry sampleIdx j &&& 0x7FFFFFFF < numOffsets8 sampleIdx)
      ∧ sampleEnv.fs ((ascii "a.idx").take ((ascii "a.idx").length - 3) ++ ascii "pack")
          = some samplePack
      ∧ samplePack ≠ [] ∧ (ascii "PACK").isPrefixOf (packVersionBuf samplePack) = true
      ∧ ((List.range (numObjectsOf sampleIdx)).map (idAt sampleIdx)).Nodup
      ∧ 1 < numObjectsOf sampleIdx)
    ∧ ∃ ifile, readIdxFile sampleEnv (ascii "a.idx") = .ret (.ok ifile)
        ∧ mapLookup ifile.offsetValues (List.replicate 20 2) = some 4294967305 := by
  have h1 : 3 ≤ (ascii "a.idx").length := by decide
  have h2 : sampleEnv.fs (ascii "a.idx") = some sampleIdx := by rfl
  have h3 : ([255, 0x74, 0x4F, 0x63] : List Byte).isPrefixOf sampleIdx = true := by decide
  have h4 : 1032 + 28 * numObjectsOf sampleIdx ≤ sampleIdx.length := by decide
  have h5 : ∀ j, j < numObjectsOf sampleIdx →
      offsetEntry sampleIdx j &&& 0x80000000 = 0x80000000 →
      offsetEntry sampleIdx j &&& 0x7FFFFFFF < numOffsets8 sampleIdx := by decide
  have h6 : sampleEnv.fs ((ascii "a.idx").take ((ascii "a.idx").length - 3) ++ ascii "pack")
      = some samplePack := by rfl
  have h7 : samplePack ≠ [] := by decide
  have h8 : (ascii "PACK").isPrefixOf (packVersionBuf samplePack) = true := by decide
  have h9 : ((List.range (numObjectsOf sampleIdx)).map (idAt sampleIdx)).Nodup := by decide
  have h10 : 1 < numObjectsOf sampleIdx := by decide
  refine ⟨⟨h1, h2, h3, h4, h5, h6, h7, h8, h9, h10⟩, ?_⟩
  obtain ⟨ifile, hret, _, hset⟩ :=
    readIdxFile_offset sampleEnv (ascii "a.idx") sampleIdx samplePack 1 h1 h2 h3 h4 h5 h6 h7 h8 h9 h10
  have e1 : (sampleIdx.drop (1032 + 20 * 1)).take 20 = List.replicate 20 2 := by decide
  have e2 : be64At sampleIdx
      (1032 + 28 * numObjectsOf sampleIdx + 8 * (offsetEntry sampleIdx 1 &&& 0x7FFFFFFF))
      = 4294967305 := by decide
  have h := hset (by decide)
  rw [e1, e2] at h
  exact ⟨ifile, hret, h⟩

set_option maxRecDepth 100000 in
/-- C4, at `sampleIdx`, whose 256th fan-out entry is 2. -/
theorem readIdxFile_entries_witness :
    (3 ≤ (ascii "a.idx").length ∧ sampleEnv.fs (ascii "a.idx") = some sampleIdx
      ∧ ([255, 0x74, 0x4F, 0x63] : List Byte).isPrefixOf sampleIdx = true
      ∧ 1032 + 28 * numObjectsOf sampleIdx ≤ sampleIdx.length
      ∧ (∀ j, j < numObjectsOf sampleIdx → offsetEntry sampleIdx j &&& 0x80000000 = 0x80000000 →
          offsetEntry sampleIdx j &&& 0x7FFFFFFF < numOffsets8 sampleIdx)
      ∧ sampleEnv.fs ((ascii "a.idx").take ((ascii "a.idx").length - 3) ++ ascii "pack")
          = some samplePack
      ∧ samplePack ≠ [] ∧ (ascii "PACK").isPrefixOf (packVersionBuf samplePack) = true
      ∧ ((List.range (numObjectsOf sampleIdx)).map (idAt sampleIdx)).Nodup)
    ∧ be32At sampleIdx 1028 = 2
    ∧ ∃ ifile, readIdxFile sampleEnv (ascii "a.idx") = .ret (.ok ifile)
        ∧ ifile.offsetValues.length = be32At sampleIdx 1028 := by
  have h1 : 3 ≤ (ascii "a.idx").length := by decide
  have h2 : sampleEnv.fs (ascii "a.idx") = some sampleIdx := by rfl
  have h3 : ([255, 0x74, 0x4F, 0x63] : List Byte).isPrefixOf sampleIdx = true := by decide
  have h4 : 1032 + 28 * numObjectsOf sampleIdx ≤ sampleIdx.length := by decide
  have h5 : ∀ j, j < numObjectsOf sampleIdx →
      offsetEntry sampleIdx j &&& 0x80000000 = 0x80000000 →
      offsetEntry sampleIdx j &&& 0x7FFFFFFF < numOffsets8 sampleIdx := by decide
  have h6 : sampleEnv.fs ((ascii "a.idx").take ((ascii "a.idx").length - 3) ++ ascii "pack")
      = some samplePack := by rfl
  have h7 : samplePack ≠ [] := by decide
  have h8 : (ascii "PACK").isPrefixOf (packVersionBuf samplePack) = true := by decide
  have h9 : ((List.range (numObjectsOf sampleIdx)).map (idAt sampleIdx)).Nodup := by decide
  refine ⟨⟨h1, h2, h3, h4, h5, h6, h7, h8, h9⟩, by decide, ?_⟩
  obtain ⟨ifile, hret, hlen, _⟩ :=
    readIdxFile_entries sampleEnv (ascii "a.idx") sampleIdx samplePack h1 h2 h3 h4 h5 h6 h7 h8 h9
  exact ⟨ifile, hret, hlen⟩

set_option maxRecDepth 100000 in
/-- C9 fails as stated: on an index that is the magic alone (4 bytes) `readIdxFile` panics
on `idx[8]`; an index of 1075 bytes without objects, whose `excessLen` is 3, and one of 1032
bytes, without the two trailing checksums, whose `excessLen` is -40, are accepted. -/
theorem readIdxFile_length_unchecked :
    (sampleEnv.fs (ascii "c.idx") = some [255, 0x74, 0x4F, 0x63]
      ∧ readIdxFile sampleEnv (ascii "c.idx") = .panic)
    ∧ (sampleEnv.fs (ascii "d.idx") = some sampleIdxOdd
      ∧ numObjectsOf sampleIdxOdd = 0
      ∧ ((sampleIdxOdd.length : Int) - 258 * 4 - 28 * 0 - 40) % 8 = 3
      ∧ readIdxFile sampleEnv (ascii "d.idx")
          = .ret (.ok ⟨ascii "d.idx", ascii "d.pack", 2, []⟩))
    ∧ (sampleEnv.fs (ascii "e.idx") = some sampleIdxBare
      ∧ numObjectsOf sampleIdxBare = 0
      ∧ (sampleIdxBare.length : Int) - 258 * 4 - 28 * 0 - 40 = -40
      ∧ readIdxFile sampleEnv (ascii "e.idx")
          = .ret (.ok ⟨ascii "e.idx", ascii "e.pack", 2, []⟩)) :=
  ⟨⟨by rfl, by decide⟩, ⟨by rfl, by decide, by decide, by decide⟩,
    ⟨by rfl, by decide, by decide, by decide⟩⟩

/-- C9, amended: `readIdxFile` makes no check of the length of an index that starts with the
magic.  When the content is shorter than `258*4 + 28*N` bytes, or too short to hold the
fan-out table, the call panics (index out of range) and returns nothing; when it is at least
that long and every indirect entry lies inside the `excessLen / 8` entries of the secondary
table that are read, the index is accepted whatever its length: the outcome is that of
the check of the pack header, with the map of the `N` identifiers. -/
theorem readIdxFile_length_outcome (env : Env) (path : GoString) (idx : List Byte)
    (hpath : 3 ≤ path.length) (hidx : env.fs path = some idx)
    (hmagic : ([255, 0x74, 0x4F, 0x63] : List Byte).isPrefixOf idx = true) :
    (idx.length < 258 * 4 ∨ idx.length < 258 * 4 + 28 * numObjectsOf idx →
        readIdxFile env path = .panic)
      ∧ (258 * 4 + 28 * numObjectsOf idx ≤ idx.length →
          (∀ i, i < numObjectsOf idx → offsetEntry idx i &&& 0x80000000 = 0x80000000 →
            offsetEntry idx i &&& 0x7FFFFFFF < numOffsets8 idx) →
          readIdxFile env path
            = readPackHeader env path (path.take (path.length - 3) ++ ascii "pack")
                (idxOffsetMap idx)) := by
  constructor
  · intro h
    exact readIdxFile_short_panic env path idx hpath hidx hmagic (by omega)
  · intro hlen hind
    exact readIdxFile_to_pack env path idx hpath hidx hmagic (by omega) hind

set_option maxRecDepth 100000 in
/-- C9 amended, at the index that is the magic alone. -/
theorem readIdxFile_length_outcome_witness :
    (3 ≤ (ascii "c.idx").length ∧ sampleEnv.fs (ascii "c.idx") = some [255, 0x74, 0x4F, 0x63]
      ∧ ([255, 0x74, 0x4F, 0x63] : List Byte).isPrefixOf [255, 0x74, 0x4F, 0x63] = true)
    ∧ ([255, 0x74, 0x4F, 0x63] : List Byte).length < 258 * 4
    ∧ readIdxFile sampleEnv (ascii "c.idx") = .panic :=
  ⟨⟨by decide, by rfl, by decide⟩, by decide,
    (readIdxFile_length_outcome sampleEnv (ascii "c.idx") [255, 0x74, 0x4F, 0x63] (by decide)
      (by rfl) (by decide)).1 (Or.inl (by decide))⟩

/-! ### `readLenInPackFile`: safety -/

/-- C20: for every buffer with a byte whose bit 7 is clear at an index `j <= 9`,
`readLenInPackFile` returns (no access out of range of the buffer or of the shift table),
with `1 <= advance <= 10` and `advance <= len(buf)`; when `j <= 8` the length returned
satisfies `0 <= length < 2^60`. -/
theorem readLenInPackFile_safe (buf : List Byte) (j : Nat) (hj : j ≤ 9) (hlen : j < buf.length)
    (hclear : byteAt buf j &&& 0x80 = 0) :
    ∃ (l : Int) (p : Nat), readLenInPackFile buf = .ret (l, p)
      ∧ 1 ≤ p ∧ p ≤ 10 ∧ p ≤ buf.length ∧ (j ≤ 8 → 0 ≤ l ∧ l < 2 ^ 60) := by
  have hex : ∃ i, byteAt buf i &&& 0x80 = 0 := ⟨j, hclear⟩
  have hk : Nat.find hex ≤ j := Nat.find_min' hex hclear
  have hstop : byteAt buf (Nat.find hex) &&& 0x80 = 0 := Nat.find_spec hex
  have hcont : ∀ i, i < Nat.find hex → byteAt buf i &&& 0x80 > 0 :=
    fun i hi => Nat.pos_of_ne_zero (Nat.find_min hex hi)
  generalize Nat.find hex = k at hk hstop hcont
  obtain ⟨b, hb, hbv⟩ := get_of_lt buf 0 (by omega)
  have hrun := readLenLoop_run buf k 11 0 (b.val &&& 0x0F) (by omega) (by omega) (by omega)
    (fun i _ h2 => hcont i (by omega)) (by rw [Nat.zero_add]; exact hstop)
  refine ⟨toInt64 ((b.val &&& 0x0F) + lenTail buf 0 k), 0 + k + 1, ?_, by omega, by omega,
    by omega, ?_⟩
  · unfold readLenInPackFile
    rw [hb]
    exact hrun
  · intro hj8
    have h1 := lenTail_lt buf 0 k
    have h2 := and_0F_lt b.val
    have h3 : (2 : Nat) ^ (4 + 7 * (0 + k)) ≤ 2 ^ 60 :=
      Nat.pow_le_pow_right (by norm_num) (by omega)
    simp only [Nat.mul_zero, Nat.add_zero, Nat.reducePow] at h1 h3
    rw [toInt64_of_lt (by simp only [Nat.reducePow]; omega)]
    constructor
    · exact Int.ofNat_nonneg _
    · have : (b.val &&& 0x0F) + lenTail buf 0 k < 2 ^ 60 := by
        simp only [Nat.reducePow]; omega
      exact_mod_cast this

/-- C20, at a header of ten bytes whose first byte with bit 7 clear is the last. -/
theorem readLenInPackFile_safe_witness :
    (9 ≤ 9 ∧ 9 < ([0x90, 0x80, 0x80, 0x80, 0x80, 0x80, 0x80, 0x80, 0x80, 0x08] : List Byte).length
      ∧ byteAt [0x90, 0x80, 0x80, 0x80, 0x80, 0x80, 0x80, 0x80, 0x80, 0x08] 9 &&& 0x80 = 0)
    ∧ ∃ (l : Int) (p : Nat),
        readLenInPackFile [0x90, 0x80, 0x80, 0x80, 0x80, 0x80, 0x80, 0x80, 0x80, 0x08]
          = .ret (l, p) ∧ 1 ≤ p ∧ p ≤ 10 :=
  ⟨⟨by decide, by decide, by decide⟩,
    (readLenInPackFile_safe [0x90, 0x80, 0x80, 0x80, 0x80, 0x80, 0x80, 0x80, 0x80, 0x08] 9
      (by decide) (by decide) (by decide)).imp
      (fun _ h => h.imp (fun _ h' => ⟨h'.1, h'.2.1, h'.2.2.1⟩))⟩

/-! ### The naming of paired files -/

theorem ascii_idx_length : (ascii "idx").length = 3 := by decide

theorem ascii_pack_length : (ascii "pack").length = 4 := by decide

theorem packPath_append_idx (s : GoString) :
    packPath (s ++ ascii "idx") = some (s ++ ascii "pack") := by
  unfold packPath
  rw [List.length_append, ascii_idx_length, if_pos (by omega), Nat.add_sub_cancel,
    List.take_left']
  rfl

theorem idxKey_append_pack (s : GoString) :
    idxKey (s ++ ascii "pack") = some (s ++ ascii "idx") := by
  unfold idxKey
  rw [List.length_append, ascii_pack_length, if_pos (by omega), Nat.add_sub_cancel,
    List.take_left']
  rfl

/-- C14: for every index path `p` ending in `idx`, the index-map key that
`readObjectBytes` derives (`path[0:len-4] + "idx"`) from the pack path that `readIdxFile`
derives (`p[0:len-3] + "pack"`) is `p`; and for every pack path `q` ending in `pack`, the
pack path that `readIdxFile` derives from the key that `readObjectBytes` derives from `q`
is `q`. -/
theorem paired_naming_round_trip (p q : GoString) (hp : ascii "idx" <:+ p)
    (hq : ascii "pack" <:+ q) :
    (packPath p).bind idxKey = some p ∧ (idxKey q).bind packPath = some q := by
  obtain ⟨s, rfl⟩ := hp
  obtain ⟨t, rfl⟩ := hq
  rw [packPath_append_idx, idxKey_append_pack]
  exact ⟨idxKey_append_pack s, packPath_append_idx t⟩

/-- C14, at the paths `a.idx` and `a.pack`. -/
theorem paired_naming_round_trip_witness :
    (ascii "idx" <:+ ascii "a.idx" ∧ ascii "pack" <:+ ascii "a.pack")
    ∧ packPath (ascii "a.idx") = some (ascii "a.pack")
    ∧ (packPath (ascii "a.idx")).bind idxKey = some (ascii "a.idx")
    ∧ (idxKey (ascii "a.pack")).bind packPath = some (ascii "a.pack") :=
  ⟨⟨⟨ascii "a.", rfl⟩, ⟨ascii "a.", rfl⟩⟩, by decide,
    (paired_naming_round_trip (ascii "a.idx") (ascii "a.pack") ⟨ascii "a.", rfl⟩
      ⟨ascii "a.", rfl⟩).1,
    (paired_naming_round_trip (ascii "a.idx") (ascii "a.pack") ⟨ascii "a.", rfl⟩
      ⟨ascii "a.", rfl⟩).2⟩
/-! ### `readObjectBytes`: headers of an unknown type -/

theorem resolveBase_unknown (indexfiles : GoString → Option idxFile) (path : GoString)
    (buf : List Byte) (ot p o : Nat) (h60 : ot ≠ 0x60) (h70 : ot ≠ 0x70) :
    resolveBase indexfiles path buf ot p o = .ret (.ok (0, p)) := by
  unfold resolveBase
  rw [if_neg h60, if_neg h70]

/-- At a header whose type bits are `0x00` or `0x50` no case of the `switch` applies, and
`readObjectBytes` goes on as for a delta whose base is at offset 0. -/
theorem readObjectBytes_unknown_type (env : Env) (indexfiles : GoString → Option idxFile)
    (path : GoString) (fuel o : Nat) (sizeonly : Bool) (file : List Byte) (l : Int) (p : Nat)
    (hfile : env.fs path = some file) (ho : o < file.length) (ho63 : o < 2 ^ 63)
    (htype : byteAt (readBuf file o) 0 &&& 0x70 = 0x00
      ∨ byteAt (readBuf file o) 0 &&& 0x70 = 0x50)
    (hhdr : readLenInPackFile (readBuf file o) = .ret (l, p)) :
    readObjectBytes env indexfiles path (fuel + 1) o sizeonly
      = match readObjectBytes env indexfiles path fuel 0 false with
        | .ret r =>
          if r.err.isSome then .ret ⟨r.ot, l, none, r.err, false⟩
          else deltaTail env file o p l sizeonly r
        | .panic => .panic
        | .fatal => .fatal
        | .outOfFuel => .outOfFuel := by
  apply readObjectBytes_recurse env indexfiles path fuel o sizeonly file l p 0 p hfile ho ho63
    _ hhdr
  · apply resolveBase_unknown
    · rcases htype with h | h <;> rw [h] <;> decide
    · rcases htype with h | h <;> rw [h] <;> decide
  · rcases htype with h | h <;> rw [h] <;> decide

set_option maxRecDepth 100000 in
/-- C19 fails on the code: in `samplePack3` the header at offset 6 has the type bits `0x00`
and the one at offset 8 the type bits `0x50`; in both cases `readObjectBytes` reads the
object at offset 0 as a base and returns without error, with the type of that object.  In
`samplePack`, which starts with `PACK`, the header at offset 0 has the type bits `0x50`
and the call recurses into offset 0 until the fuel is spent. -/
theorem readObjectBytes_unknown_type_resolves_base :
    (byteAt (readBuf samplePack3 6) 0 &&& 0x70 = 0x00
      ∧ resolveBase (fun _ => none) (ascii "g.pack") (readBuf samplePack3 6) 0x00 1 6
          = .ret (.ok (0, 1))
      ∧ readObjectBytes sampleEnv3 (fun _ => none) (ascii "g.pack") 2 6 false
          = .ret ⟨0x30, 5, some ⟨[1, 2, 3, 4, 5, 9, 9, 9], false⟩, none, true⟩)
    ∧ (byteAt (readBuf samplePack3 8) 0 &&& 0x70 = 0x50
      ∧ readObjectBytes sampleEnv3 (fun _ => none) (ascii "g.pack") 2 8 false
          = .ret ⟨0x30, 5, some ⟨[1, 2, 3, 4, 5, 9], false⟩, none, true⟩)
    ∧ (byteAt (readBuf samplePack 0) 0 &&& 0x70 = 0x50
      ∧ readObjectBytes sampleEnv (fun _ => none) (ascii "a.pack") 30 0 false = .outOfFuel) :=
  ⟨⟨by decide, by rfl, by decide⟩, ⟨by decide, by decide⟩, ⟨by decide, by decide⟩⟩

/-! ### `readObjectBytes`: the length of a delta object -/

/-- After the base has been read, the full read of a delta returns the length of the pack
header, and the size-only read the second number of the delta payload. -/
theorem deltaTail_length (env : Env) (file : List Byte) (o pos : Nat) (l : Int) (r : Ret)
    (baseRc rc : Stream) (hbase : r.dataRc = some baseRc) (hok : baseRc.failed = false)
    (hseek : ¬ 2 ^ 63 ≤ wrap64 (o + pos))
    (hz : env.readerDecompressed (file.drop (o + pos)) = .ok rc) :
    (∃ r', deltaTail env file o pos l false r = .ret r' ∧ r'.length = l)
      ∧ (∃ r', deltaTail env file o pos l true r = .ret r'
          ∧ r'.length = (env.readerLittleEndianBase128Number
              (env.readerLittleEndianBase128Number rc).2.2).1) := by
  unfold deltaTail
  simp only [hbase, hok, hz, if_neg hseek]
  simp

set_option maxRecDepth 100000 in
/-- C16 fails on the code: the offset-delta at offset 144 of `samplePack` has the pack header
`0x65` (length 5) and a delta payload whose second number is 9; the full read returns the
length 5 without error, the size-only read returns 9. -/
theorem readObjectBytes_delta_length_differs :
    readLenInPackFile (readBuf samplePack 144) = .ret (5, 1)
      ∧ (∃ r, readObjectBytes sampleEnv (fun _ => none) (ascii "a.pack") 2 144 false = .ret r
          ∧ r.err = none ∧ r.length = 5)
      ∧ (∃ r, readObjectBytes sampleEnv (fun _ => none) (ascii "a.pack") 2 144 true = .ret r
          ∧ r.err = none ∧ r.length = 9) :=
  ⟨by decide, ⟨⟨0x30, 5, some ⟨[1, 2, 3, 0, 0], false⟩, none, true⟩, by decide, rfl, rfl⟩,
    ⟨⟨0x30, 9, none, none, false⟩, by decide, rfl, rfl⟩⟩
/-! ### `readObjectBytes`: the file handle -/

theorem finalObject_fileOpen (env : Env) (file : List Byte) (o ot : Nat) (l : Int) (p : Nat)
    (sizeonly : Bool)
    (h : (finalObject env file o ot l p sizeonly).err ≠ none ∨ sizeonly = true) :
    (finalObject env file o ot l p sizeonly).fileOpen = false := by
  unfold finalObject at h ⊢
  by_cases hs : sizeonly = true
  · rw [if_pos hs]
  · rw [if_neg hs] at h ⊢
    by_cases hseek : 2 ^ 63 ≤ wrap64 (o + p)
    · rw [if_pos hseek]
    · rw [if_neg hseek] at h ⊢
      cases hz : env.readerDecompressed (file.drop (o + p)) with
      | error e => rfl
      | ok dataRc =>
        rw [hz] at h
        rcases h with h | h
        · exact absurd rfl h
        · exact absurd h hs

theorem deltaTail_fileOpen (env : Env) (file : List Byte) (o pos : Nat) (l : Int)
    (sizeonly : Bool) (r r' : Ret) (h : deltaTail env file o pos l sizeonly r = .ret r')
    (hc : r'.err ≠ none ∨ sizeonly = true) : r'.fileOpen = false := by
  unfold deltaTail at h
  split at h
  · simp at h
  · split at h
    · simp only [Outcome.ret.injEq] at h; rw [← h]
    · split at h
      · simp only [Outcome.ret.injEq] at h; rw [← h]
      · split at h
        · simp only [Outcome.ret.injEq] at h; rw [← h]
        · simp only at h
          split at h
          · simp only [Outcome.ret.injEq] at h; rw [← h]
          · rename_i hs
            simp only [Outcome.ret.injEq] at h
            rw [← h] at hc ⊢
            simp only at hc ⊢
            rcases hc with hc | hc
            · cases hres : (env.readerApplyDelta _ _ _).2 with
              | none => exact absurd hres hc
              | some e => rfl
            · exact absurd hc hs

/-- The part of the claim that holds: whenever `readObjectBytes` returns an error or was
called with `sizeonly = true`, the file it opened is closed when it returns. -/
theorem readObjectBytes_closed (env : Env) (indexfiles : GoString → Option idxFile)
    (path : GoString) (fuel o : Nat) (sizeonly : Bool) (r : Ret)
    (h : readObjectBytes env indexfiles path fuel o sizeonly = .ret r)
    (hc : r.err ≠ none ∨ sizeonly = true) : r.fileOpen = false := by
  cases fuel with
  | zero => simp [readObjectBytes] at h
  | succ fuel =>
    rw [readObjectBytes] at h
    simp only at h
    split at h
    · simp only [Outcome.ret.injEq] at h; rw [← h]
    · split at h
      · simp only [Outcome.ret.injEq] at h; rw [← h]
      · split at h
        · simp only [Outcome.ret.injEq] at h; rw [← h]
        · split at h
          · split at h
            · simp only [Outcome.ret.injEq] at h
              rw [← h] at hc ⊢
              exact finalObject_fileOpen _ _ _ _ _ _ _ hc
            · split at h
              · simp only [Outcome.ret.injEq] at h; rw [← h]
              · split at h
                · split at h
                  · simp only [Outcome.ret.injEq] at h; rw [← h]
                  · exact deltaTail_fileOpen _ _ _ _ _ _ _ _ h hc
                · simp at h
                · simp at h
                · simp at h
              · simp at h
              · simp at h
              · simp at h
          · simp at h
          · simp at h
          · simp at h

set_option maxRecDepth 100000 in
/-- C17 fails on the code: the full read of the offset-delta at offset 144 of `samplePack`
returns without error a stream that is the buffer of the reconstructed bytes
(`newBufReadCloser(data)`), and the pack file opened by the call is still open: the
deferred function closes it only when `err != nil || sizeonly`. -/
theorem readObjectBytes_delta_leaves_file_open :
    byteAt (readBuf samplePack 144) 0 &&& 0x70 = 0x60
      ∧ ∃ r, readObjectBytes sampleEnv (fun _ => none) (ascii "a.pack") 2 144 false = .ret r
          ∧ r.err = none
          ∧ r.dataRc = some ⟨(sampleEnv.readerApplyDelta [1, 2, 3, 0, 0] ⟨[], false⟩ 9).1, false⟩
          ∧ r.fileOpen = true :=
  ⟨by decide, ⟨0x30, 5, some ⟨[1, 2, 3, 0, 0], false⟩, none, true⟩, by decide, rfl, by decide,
    rfl⟩

/-! ### `GetTags` -/

theorem foldl_append_singleton {α : Type} (fis : List α) :
    ∀ names : List α, fis.foldl (fun names fi => names ++ [fi]) names = names ++ fis := by
  induction fis with
  | nil => intro names; simp
  | cons fi fis ih => intro names; rw [List.foldl_cons, ih]; simp

/-- `GetTags` returns the names of the entries in the order of the directory listing. -/
theorem GetTags_listing (readdir : GoString → Option (Except String (List GoString)))
    (repoPath : GoString) (fis : List GoString)
    (h : readdir (filepathJoin repoPath (ascii "refs/tags")) = some (.ok fis)) :
    GetTags readdir repoPath = .ok fis := by
  unfold GetTags
  rw [h]
  simp only
  rw [foldl_append_singleton]
  rfl

/-- C15 fails on the code: when the listing of `r/refs/tags` yields `v2.0.0` before
`v1.0.0`, `GetTags` returns the two names in that order, which is not ascending. -/
theorem GetTags_not_sorted :
    sampleReaddir (filepathJoin (ascii "r") (ascii "refs/tags"))
        = some (.ok [ascii "v2.0.0", ascii "v1.0.0"])
      ∧ GetTags sampleReaddir (ascii "r") = .ok [ascii "v2.0.0", ascii "v1.0.0"]
      ∧ ascii "v1.0.0" < ascii "v2.0.0"
      ∧ GetTags sampleReaddir (ascii "r") ≠ .ok [ascii "v1.0.0", ascii "v2.0.0"] :=
  ⟨by decide, by decide, by decide, by decide⟩
/-! ### `readObjectFile` -/

theorem ascii_words_ne :
    ascii "blob" ≠ ascii "tree" ∧ ascii "blob" ≠ ascii "commit" ∧ ascii "blob" ≠ ascii "tag"
      ∧ ascii "tree" ≠ ascii "commit" ∧ ascii "tree" ≠ ascii "tag"
      ∧ ascii "commit" ≠ ascii "tag" := by decide

/-- The result of `readObjectFile` on a header that scans as a type word and a length that
is not negative. -/
theorem readObjectFile_eq (env : Env) (Fscanf : Stream → Except String (GoString × Int × Stream))
    (path : GoString) (sizeonly : Bool) (f : List Byte) (dataRc rest : Stream) (t : GoString)
    (L : Int) (hf : env.fs path = some f) (hz : env.readerDecompressed f = .ok dataRc)
    (hscan : Fscanf dataRc = .ok (t, L, rest)) (hL : 0 ≤ L) (ht : isTypeWord t) :
    readObjectFile env Fscanf path sizeonly
      = if sizeonly then ⟨typeOfWord t, L, none, none, false⟩
        else ⟨typeOfWord t, L, some (limitReader rest L), none, true⟩ := by
  obtain ⟨h1, h2, h3, h4, h5, h6⟩ := ascii_words_ne
  unfold readObjectFile typeOfWord
  simp only [hf, hz, hscan]
  rw [if_neg (by omega)]
  rcases ht with rfl | rfl | rfl | rfl
  · simp
  · simp [h1.symm]
  · simp [h2.symm, h4.symm]
  · simp [h3.symm, h5.symm, h6.symm]

/-- C11: for a loose object whose decompressed content scans as the header `<t> <L>\0`,
with `t` one of `blob`, `tree`, `commit`, `tag` and `L >= 0`, and leaves the payload `P`,
`readObjectFile` returns without error the type of the word `t` and the length `L`; with
`sizeonly = false` the stream yields exactly the first `min(L, |P|)` bytes of `P`, and
with `sizeonly = true` the stream is nil. -/
theorem readObjectFile_ok (env : Env) (Fscanf : Stream → Except String (GoString × Int × Stream))
    (path : GoString) (f : List Byte) (dataRc rest : Stream) (t : GoString) (L : Int)
    (hf : env.fs path = some f) (hz : env.readerDecompressed f = .ok dataRc)
    (hscan : Fscanf dataRc = .ok (t, L, rest)) (hL : 0 ≤ L) (ht : isTypeWord t) :
    ((readObjectFile env Fscanf path false).err = none
        ∧ (readObjectFile env Fscanf path false).ot = typeOfWord t
        ∧ (readObjectFile env Fscanf path false).length = L
        ∧ ∃ s, (readObjectFile env Fscanf path false).dataRc = some s
            ∧ s.data = rest.data.take (min L.toNat rest.data.length))
      ∧ ((readObjectFile env Fscanf path true).err = none
        ∧ (readObjectFile env Fscanf path true).ot = typeOfWord t
        ∧ (readObjectFile env Fscanf path true).length = L
        ∧ (readObjectFile env Fscanf path true).dataRc = none)
      ∧ (t = ascii "blob" → typeOfWord t = ObjectBlob)
      ∧ (t = ascii "tree" → typeOfWord t = ObjectTree)
      ∧ (t = ascii "commit" → typeOfWord t = ObjectCommit)
      ∧ (t = ascii "tag" → typeOfWord t = ObjectTag) := by
  rw [readObjectFile_eq env Fscanf path false f dataRc rest t L hf hz hscan hL ht,
    readObjectFile_eq env Fscanf path true f dataRc rest t L hf hz hscan hL ht]
  refine ⟨⟨rfl, rfl, rfl, _, rfl, ?_⟩, ⟨rfl, rfl, rfl, rfl⟩, ?_, ?_, ?_, ?_⟩
  · unfold limitReader
    simp only
    rw [List.take_eq_take]
    simp [Nat.min_assoc]
  · rintro rfl; decide
  · rintro rfl; decide
  · rintro rfl; decide
  · rintro rfl; decide

/-- C11, at the loose object `blob 5\0hello`: the result is `(Blob, 5, "hello")`. -/
theorem readObjectFile_ok_witness :
    (sampleEnvLoose.fs (ascii "h") = some (ascii "blob 5" ++ [0] ++ ascii "hello")
      ∧ sampleEnvLoose.readerDecompressed (ascii "blob 5" ++ [0] ++ ascii "hello")
          = .ok ⟨ascii "blob 5" ++ [0] ++ ascii "hello", false⟩
      ∧ sampleFscanf ⟨ascii "blob 5" ++ [0] ++ ascii "hello", false⟩
          = .ok (ascii "blob", 5, ⟨ascii "hello", false⟩)
      ∧ (0 : Int) ≤ 5 ∧ isTypeWord (ascii "blob"))
    ∧ readObjectFile sampleEnvLoose sampleFscanf (ascii "h") false
        = ⟨ObjectBlob, 5, some ⟨ascii "hello", false⟩, none, true⟩
    ∧ (readObjectFile sampleEnvLoose sampleFscanf (ascii "h") true).dataRc = none :=
  ⟨⟨by decide, by rfl, by decide, by decide, by decide⟩, by decide,
    (readObjectFile_ok sampleEnvLoose sampleFscanf (ascii "h")
      (ascii "blob 5" ++ [0] ++ ascii "hello") ⟨ascii "blob 5" ++ [0] ++ ascii "hello", false⟩
      ⟨ascii "hello", false⟩ (ascii "blob") 5 (by decide) (by rfl) (by decide) (by decide)
      (by decide)).2.1.2.2.2⟩
/-- C12: for a loose object whose decompressed header scans as the type word `t` and the
length `L`, `readObjectFile` returns an error if and only if `L < 0` or `t` is none of
`blob`, `tree`, `commit`, `tag`; with every such error it returns the type 0, the length 0
and a nil stream; and when `L < 0` the error is the one of the negative length, whatever
`t` is. -/
theorem readObjectFile_error_iff (env : Env)
    (Fscanf : Stream → Except String (GoString × Int × Stream)) (path : GoString)
    (sizeonly : Bool) (f : List Byte) (dataRc rest : Stream) (t : GoString) (L : Int)
    (hf : env.fs path = some f) (hz : env.readerDecompressed f = .ok dataRc)
    (hscan : Fscanf dataRc = .ok (t, L, rest)) :
    ((readObjectFile env Fscanf path sizeonly).err ≠ none ↔ (L < 0 ∨ ¬ isTypeWord t))
      ∧ ((readObjectFile env Fscanf path sizeonly).err ≠ none →
          (readObjectFile env Fscanf path sizeonly).ot = 0
            ∧ (readObjectFile env Fscanf path sizeonly).length = 0
            ∧ (readObjectFile env Fscanf path sizeonly).dataRc = none)
      ∧ (L < 0 → (readObjectFile env Fscanf path sizeonly).err
          = some "Negitive length of object file")
      ∧ (0 ≤ L → ¬ isTypeWord t → (readObjectFile env Fscanf path sizeonly).err
          = some "Unknown object type") := by
  by_cases hL : L < 0
  · have hval : readObjectFile env Fscanf path sizeonly
        = ⟨0, 0, none, some "Negitive length of object file", false⟩ := by
      unfold readObjectFile
      simp only [hf, hz, hscan]
      rw [if_pos hL]
    rw [hval]
    refine ⟨⟨fun _ => Or.inl hL, fun _ => by simp⟩, fun _ => ⟨rfl, rfl, rfl⟩, fun _ => rfl, ?_⟩
    intro h; omega
  · by_cases ht : isTypeWord t
    · rw [readObjectFile_eq env Fscanf path sizeonly f dataRc rest t L hf hz hscan (by omega) ht]
      refine ⟨⟨?_, ?_⟩, ?_, fun h => absurd h hL, fun _ h => absurd ht h⟩
      · intro h; exfalso; apply h; cases sizeonly <;> rfl
      · rintro (h | h)
        · exact absurd h hL
        · exact absurd ht h
      · intro h; exfalso; apply h; cases sizeonly <;> rfl
    · have hval : readObjectFile env Fscanf path sizeonly
          = ⟨0, 0, none, some "Unknown object type", false⟩ := by
        unfold isTypeWord at ht
        simp only [not_or] at ht
        unfold readObjectFile
        simp only [hf, hz, hscan]
        rw [if_neg hL, if_neg ht.1, if_neg ht.2.1, if_neg ht.2.2.1, if_neg ht.2.2.2]
      rw [hval]
      exact ⟨⟨fun _ => Or.inr ht, fun _ => by simp⟩, fun _ => ⟨rfl, rfl, rfl⟩,
        fun h => absurd h hL, fun _ _ => rfl⟩

/-- C12, at the loose object `blob -5\0hello`. -/
theorem readObjectFile_error_iff_witness :
    (sampleEnvLoose.fs (ascii "i") = some (ascii "blob -5" ++ [0] ++ ascii "hello")
      ∧ sampleEnvLoose.readerDecompressed (ascii "blob -5" ++ [0] ++ ascii "hello")
          = .ok ⟨ascii "blob -5" ++ [0] ++ ascii "hello", false⟩
      ∧ sampleFscanf ⟨ascii "blob -5" ++ [0] ++ ascii "hello", false⟩
          = .ok (ascii "blob", -5, ⟨ascii "hello", false⟩))
    ∧ readObjectFile sampleEnvLoose sampleFscanf (ascii "i") false
        = ⟨0, 0, none, some "Negitive length of object file", false⟩
    ∧ (readObjectFile sampleEnvLoose sampleFscanf (ascii "i") false).err
        = some "Negitive length of object file" :=
  ⟨⟨by decide, by rfl, by decide⟩, by decide,
    (readObjectFile_error_iff sampleEnvLoose sampleFscanf (ascii "i") false
      (ascii "blob -5" ++ [0] ++ ascii "hello") ⟨ascii "blob -5" ++ [0] ++ ascii "hello", false⟩
      ⟨ascii "hello", false⟩ (ascii "blob") (-5) (by decide) (by rfl) (by decide)).2.2.1
      (by decide)⟩
/-! ### `readObjectBytes`: termination -/

theorem readLenLoop_ne_outOfFuel (buf : List Byte) :
    ∀ (fuel a len : Nat), 0 < fuel → 10 < a + fuel → readLenLoop buf fuel a len ≠ .outOfFuel := by
  intro fuel
  induction fuel with
  | zero => intro a len h; omega
  | succ fuel ih =>
    intro a len _ hf
    rw [readLenLoop]
    split
    · simp
    · split
      · split
        · rename_i c s hc hs
          have hs9 : a + 1 < shift.length := by
            by_contra hge
            rw [List.getElem?_eq_none (by omega)] at hs
            simp at hs
          have hs10 : a + 1 ≤ 9 := by simp [shift] at hs9; omega
          exact ih (a + 1) _ (by omega) (by omega)
        · simp
      · simp

/-- The fuel of `readLenInPackFile` never runs out. -/
theorem readLenInPackFile_ne_outOfFuel (buf : List Byte) : readLenInPackFile buf ≠ .outOfFuel := by
  unfold readLenInPackFile
  split
  · simp
  · exact readLenLoop_ne_outOfFuel buf 11 0 _ (by omega) (by omega)

theorem deltaTail_ne_outOfFuel (env : Env) (file : List Byte) (o pos : Nat) (l : Int)
    (sizeonly : Bool) (r : Ret) : deltaTail env file o pos l sizeonly r ≠ .outOfFuel := by
  unfold deltaTail
  split
  · simp
  · split
    · simp
    · split
      · simp
      · split
        · simp
        · simp only
          split <;> simp

theorem resolveBase_of_decode (indexfiles : GoString → Option idxFile) (path : GoString)
    (buf : List Byte) (p o v pos : Nat) (h : negOffsetDecode buf p = .ret (v, pos)) :
    resolveBase indexfiles path buf 0x60 p o = .ret (.ok (wrap64 (o + (2 ^ 64 - v)), pos + 1)) := by
  unfold negOffsetDecode at h
  unfold resolveBase
  rw [if_pos rfl]
  split
  · rename_i hb; rw [hb] at h; simp at h
  · rename_i b hb
    rw [hb] at h
    simp only at h
    rw [h]
/-- C18: let `S` hold of the start offset and of every object reached from it, and let every
object of `S` whose header can be read be of a final type or an offset-delta whose decoded
value `v` satisfies `1 <= v <= its own offset`.  Then the recursion of `readObjectBytes` from
an offset `o` of `S` ends within the depth `o + 1`: with `o + 1` levels, and with any larger
number, the call does not run out of levels, and its outcome is the same. -/
theorem readObjectBytes_terminates (env : Env) (indexfiles : GoString → Option idxFile)
    (path : GoString) (file : List Byte) (S : Nat → Prop) (hfile : env.fs path = some file)
    (hS : ∀ a, S a → a < file.length → a < 2 ^ 63 →
      ∀ l p, readLenInPackFile (readBuf file a) = .ret (l, p) →
        isFinalType (byteAt (readBuf file a) 0 &&& 0x70) = true
          ∨ (byteAt (readBuf file a) 0 &&& 0x70 = 0x60
            ∧ ∃ v pos, negOffsetDecode (readBuf file a) p = .ret (v, pos)
                ∧ 1 ≤ v ∧ v ≤ a ∧ S (a - v)))
    (o : Nat) (ho : S o) (ho64 : o < 2 ^ 64) (sizeonly : Bool) (fuel : Nat)
    (hfuel : o + 1 ≤ fuel) :
    readObjectBytes env indexfiles path fuel o sizeonly ≠ .outOfFuel
      ∧ readObjectBytes env indexfiles path fuel o sizeonly
        = readObjectBytes env indexfiles path (o + 1) o sizeonly := by
  have main : ∀ o, S o → o < 2 ^ 64 → ∀ (sizeonly : Bool) (fuel : Nat), o + 1 ≤ fuel →
      readObjectBytes env indexfiles path fuel o sizeonly ≠ .outOfFuel
        ∧ readObjectBytes env indexfiles path fuel o sizeonly
          = readObjectBytes env indexfiles path (o + 1) o sizeonly := by
    intro o
    induction o using Nat.strong_induction_on with
    | _ o ih =>
      intro ho ho64 sizeonly fuel hfuel
      have hw : wrap64 o = o := wrap64_of_lt ho64
      obtain ⟨f, rfl⟩ : ∃ f, fuel = f + 1 := ⟨fuel - 1, by omega⟩
      have const : ∀ X : Outcome Ret, X ≠ .outOfFuel →
          (∀ g, readObjectBytes env indexfiles path (g + 1) o sizeonly = X) →
          readObjectBytes env indexfiles path (f + 1) o sizeonly ≠ .outOfFuel
            ∧ readObjectBytes env indexfiles path (f + 1) o sizeonly
              = readObjectBytes env indexfiles path (o + 1) o sizeonly := by
        intro X hX h
        rw [h f, h o]
        exact ⟨hX, rfl⟩
      by_cases h63 : 2 ^ 63 ≤ o
      · apply const (.ret ⟨0, 0, none, some "seek", false⟩) (by simp)
        intro g
        rw [readObjectBytes]
        simp only [hfile, hw]
        rw [if_pos h63]
      by_cases hlen : file.length ≤ o
      · apply const (.ret ⟨0, 0, none, some "EOF", false⟩) (by simp)
        intro g
        rw [readObjectBytes]
        simp only [hfile, hw]
        rw [if_neg h63, if_pos hlen]
      cases hhdr : readLenInPackFile (readBuf file o) with
      | panic =>
        apply const .panic (by simp)
        intro g
        rw [readObjectBytes]
        simp only [hfile, hw]
        rw [if_neg h63, if_neg hlen]
        simp only [hhdr]
      | fatal =>
        apply const .fatal (by simp)
        intro g
        rw [readObjectBytes]
        simp only [hfile, hw]
        rw [if_neg h63, if_neg hlen]
        simp only [hhdr]
      | outOfFuel => exact absurd hhdr (readLenInPackFile_ne_outOfFuel _)
      | ret lp =>
        obtain ⟨l, p⟩ := lp
        rcases hS o ho (by omega) (by omega) l p hhdr with hfin | ⟨h60, v, pos, hdec, hv1, hvo, hSb⟩
        · apply const (.ret (finalObject env file o (byteAt (readBuf file o) 0 &&& 0x70) l p
            sizeonly)) (by simp)
          intro g
          rw [readObjectBytes]
          simp only [hfile, hw]
          rw [if_neg h63, if_neg hlen]
          simp only [hhdr, hfin, if_true]
        · have hbase := resolveBase_of_decode indexfiles path (readBuf file o) p o v pos hdec
          have hb : wrap64 (o + (2 ^ 64 - v)) = o - v := by unfold wrap64; omega
          rw [hb] at hbase
          have hrec := fun g => readObjectBytes_recurse env indexfiles path g o sizeonly file l p
            (o - v) (pos + 1) hfile (by omega) (by omega) (by rw [h60]; exact isFinalType_60)
            hhdr (by rw [h60]; exact hbase)
          have ih1 := ih (o - v) (by omega) hSb (by omega) false f (by omega)
          have ih2 := ih (o - v) (by omega) hSb (by omega) false o (by omega)
          have hne := ih2.1
          rw [ih2.2] at hne
          rw [hrec f, hrec o, ih1.2, ih2.2]
          refine ⟨?_, rfl⟩
          cases hR : readObjectBytes env indexfiles path (o - v + 1) (o - v) false with
          | ret r =>
            simp only
            split
            · simp
            · exact deltaTail_ne_outOfFuel _ _ _ _ _ _ _
          | panic => simp
          | fatal => simp
          | outOfFuel => exact absurd hR hne
  exact main o ho ho64 sizeonly fuel hfuel
set_option maxRecDepth 100000 in
/-- C18, at the offset-delta of `samplePack` (offset 144, value 132), whose base is the blob
at offset 12: the objects reached are those at the offsets 144 and 12. -/
theorem readObjectBytes_terminates_witness :
    (sampleEnv.fs (ascii "a.pack") = some samplePack
      ∧ (∀ a, (a = 144 ∨ a = 12) → a < samplePack.length → a < 2 ^ 63 →
          ∀ l p, readLenInPackFile (readBuf samplePack a) = .ret (l, p) →
            isFinalType (byteAt (readBuf samplePack a) 0 &&& 0x70) = true
              ∨ (byteAt (readBuf samplePack a) 0 &&& 0x70 = 0x60
                ∧ ∃ v pos, negOffsetDecode (readBuf samplePack a) p = .ret (v, pos)
                    ∧ 1 ≤ v ∧ v ≤ a ∧ (a - v = 144 ∨ a - v = 12)))
      ∧ (144 = 144 ∨ 144 = 12) ∧ 144 < 2 ^ 64 ∧ 144 + 1 ≤ 200)
    ∧ readObjectBytes sampleEnv (fun _ => none) (ascii "a.pack") 200 144 false ≠ .outOfFuel
    ∧ readObjectBytes sampleEnv (fun _ => none) (ascii "a.pack") 200 144 false
        = readObjectBytes sampleEnv (fun _ => none) (ascii "a.pack") (144 + 1) 144 false := by
  have h1 : sampleEnv.fs (ascii "a.pack") = some samplePack := by rfl
  have h2 : ∀ a, (a = 144 ∨ a = 12) → a < samplePack.length → a < 2 ^ 63 →
      ∀ l p, readLenInPackFile (readBuf samplePack a) = .ret (l, p) →
        isFinalType (byteAt (readBuf samplePack a) 0 &&& 0x70) = true
          ∨ (byteAt (readBuf samplePack a) 0 &&& 0x70 = 0x60
            ∧ ∃ v pos, negOffsetDecode (readBuf samplePack a) p = .ret (v, pos)
                ∧ 1 ≤ v ∧ v ≤ a ∧ (a - v = 144 ∨ a - v = 12)) := by
    rintro a (rfl | rfl) _ _ l p hhdr
    · have hp : readLenInPackFile (readBuf samplePack 144) = .ret (5, 1) := by decide
      rw [hp] at hhdr
      simp only [Outcome.ret.injEq, Prod.mk.injEq] at hhdr
      obtain ⟨_, rfl⟩ := hhdr
      exact Or.inr ⟨by decide, 132, 2, by decide, by decide, by decide, by decide⟩
    · exact Or.inl (by decide)
  exact ⟨⟨h1, h2, by decide, by decide, by decide⟩,
    readObjectBytes_terminates sampleEnv (fun _ => none) (ascii "a.pack") samplePack
      (fun a => a = 144 ∨ a = 12) h1 h2 144 (by decide) (by decide) false 200 (by decide)⟩
/-! ### The negative-offset encoding is reversible -/

theorem negOffsetRec_succ (c : Nat → Nat) (k : Nat) :
    negOffsetRec c (k + 1) = (negOffsetRec c k + 1) * 128 + (c (k + 1) &&& 0x7F) := by
  rw [negOffsetRec, shl7_or]

theorem negOffsetRec_congr (c d : Nat → Nat) :
    ∀ k, (∀ i, i ≤ k → c i &&& 0x7F = d i &&& 0x7F) → negOffsetRec c k = negOffsetRec d k := by
  intro k
  induction k with
  | zero => intro h; exact h 0 (le_refl _)
  | succ k ih =>
    intro h
    rw [negOffsetRec_succ, negOffsetRec_succ, ih (fun i hi => h i (by omega)), h (k + 1) (le_refl _)]

theorem negOffsetRec_ge (c : Nat → Nat) (k : Nat) : 128 ≤ negOffsetRec c (k + 1) := by
  rw [negOffsetRec_succ]; omega

/-- Two digit sequences with the same value have the same length and the same digits. -/
theorem negOffsetRec_inj (c d : Nat → Nat) :
    ∀ k m, negOffsetRec c k = negOffsetRec d m →
      k = m ∧ ∀ i, i ≤ k → c i &&& 0x7F = d i &&& 0x7F := by
  intro k
  induction k with
  | zero =>
    intro m h
    cases m with
    | zero =>
      refine ⟨rfl, ?_⟩
      intro i hi
      have : i = 0 := by omega
      subst this
      exact h
    | succ m =>
      exfalso
      have h1 := negOffsetRec_ge d m
      have h2 : negOffsetRec c 0 < 128 := and_7F_lt (c 0)
      omega
  | succ k ih =>
    intro m h
    cases m with
    | zero =>
      exfalso
      have h1 := negOffsetRec_ge c k
      have h2 : negOffsetRec d 0 < 128 := and_7F_lt (d 0)
      omega
    | succ m =>
      rw [negOffsetRec_succ, negOffsetRec_succ] at h
      have hx := and_7F_lt (c (k + 1))
      have hy := and_7F_lt (d (m + 1))
      have hA : negOffsetRec c k = negOffsetRec d m := by omega
      obtain ⟨hkm, hdig⟩ := ih m hA
      subst hkm
      refine ⟨rfl, ?_⟩
      intro i hi
      rcases Nat.lt_or_ge i (k + 1) with hlt | hge
      · exact hdig i (by omega)
      · have : i = k + 1 := by omega
        subst this
        omega

set_option maxRecDepth 100000 in
theorem byte_split : ∀ x, x < 256 →
    x = (x &&& 0x7F) + (x &&& 0x80) ∧ (x &&& 0x80 = 0 ∨ x &&& 0x80 = 128) := by
  decide

set_option maxRecDepth 100000 in
theorem digit_bits : ∀ d, d < 128 →
    d &&& 0x7F = d ∧ d &&& 0x80 = 0 ∧ (128 + d) &&& 0x7F = d ∧ (128 + d) &&& 0x80 = 128 := by
  decide

theorem byteAt_eq_getElem (cs : List Byte) (i : Nat) (h : i < cs.length) :
    byteAt cs i = (cs[i]).val := by
  exact byteAt_of_get (List.getElem?_eq_getElem h)

/-- The value that the loop of the case `0x60` decodes from a well-formed encoding that
fits in 64 bits. -/
theorem negOffsetDecode_wellFormed (cs : List Byte) (hwf : WellFormedEnc cs)
    (hfit : negOffsetRec (byteAt cs) (cs.length - 1) < 2 ^ 64) :
    negOffsetDecode cs 0 = .ret (negOffsetRec (byteAt cs) (cs.length - 1), cs.length - 1) := by
  obtain ⟨hne, hcont, hstop⟩ := hwf
  have hpos : 0 < cs.length := List.length_pos.2 hne
  obtain ⟨b, hb, hbv⟩ := get_of_lt cs 0 hpos
  have hfun : (fun i => byteAt cs (0 + i)) = byteAt cs := by
    funext i; rw [Nat.zero_add]
  have hval : negOffsetFrom cs 0 (b.val &&& 0x7f) (cs.length - 1)
      = negOffsetRec (byteAt cs) (cs.length - 1) := by
    rw [← hbv, negOffsetFrom_eq_rec, hfun]
  have hrun := offsetLoop_run cs (cs.length - 1) (cs.length + 1) 0 (b.val &&& 0x7f) (by omega)
    (by omega) (fun i hi => by rw [Nat.zero_add]; exact hcont i hi)
    (by rw [Nat.zero_add]; exact hstop) (by rw [hval]; exact hfit)
  unfold negOffsetDecode
  rw [hb]
  simp only
  rw [hrun, hval, Nat.zero_add]

theorem wellFormed_eq_of_digits (cs ds : List Byte) (hc : WellFormedEnc cs)
    (hd : WellFormedEnc ds) (hlen : cs.length = ds.length)
    (hdig : ∀ i, i ≤ cs.length - 1 → byteAt cs i &&& 0x7F = byteAt ds i &&& 0x7F) : cs = ds := by
  obtain ⟨hne, hcont, hstop⟩ := hc
  obtain ⟨hne', hcont', hstop'⟩ := hd
  apply List.ext_getElem hlen
  intro i h1 h2
  apply Fin.ext
  rw [← byteAt_eq_getElem cs i h1, ← byteAt_eq_getElem ds i h2]
  have hs1 := byte_split (byteAt cs i) (byteAt_lt cs i)
  have hs2 := byte_split (byteAt ds i) (byteAt_lt ds i)
  have hdi := hdig i (by omega)
  rcases Nat.lt_or_ge i (cs.length - 1) with hlt | hge
  · have c1 := hcont i hlt
    have c2 := hcont' i (by omega)
    omega
  · have hi : i = cs.length - 1 := by omega
    have c1 : byteAt cs i &&& 0x80 = 0 := by rw [hi]; exact hstop
    have c2 : byteAt ds i &&& 0x80 = 0 := by rw [hi, hlen]; exact hstop'
    omega
/-- Every natural number is the value of a sequence of digits below 128. -/
theorem negOffsetRec_surj : ∀ n : Nat, ∃ (k : Nat) (c : Nat → Nat),
    (∀ i, c i < 128) ∧ negOffsetRec c k = n := by
  intro n
  induction n using Nat.strong_induction_on with
  | _ n ih =>
    rcases Nat.lt_or_ge n 128 with hlt | hge
    · refine ⟨0, fun _ => n, fun _ => hlt, ?_⟩
      exact (digit_bits n hlt).1
    · obtain ⟨k, c, hc, hval⟩ := ih (n / 128 - 1) (by omega)
      refine ⟨k + 1, fun i => if i ≤ k then c i else n % 128, ?_, ?_⟩
      · intro i
        by_cases hi : i ≤ k
        · simp only [hi, if_true]; exact hc i
        · simp only [hi, if_false]; omega
      · rw [negOffsetRec_succ]
        have hcongr : negOffsetRec (fun i => if i ≤ k then c i else n % 128) k
            = negOffsetRec c k := by
          apply negOffsetRec_congr
          intro i hi
          simp only [hi, if_true]
        rw [hcongr, hval]
        have hlast : (if k + 1 ≤ k then c (k + 1) else n % 128) = n % 128 := by
          rw [if_neg (by omega)]
        simp only [hlast]
        rw [(digit_bits (n % 128) (by omega)).1]
        omega

/-- The bytes of a sequence of `k + 1` digits: bit 7 is set in all but the last. -/
theorem encoding_of_digits (k : Nat) (c : Nat → Nat) (hc : ∀ i, c i < 128) :
    ∃ cs : List Byte, cs.length = k + 1 ∧ WellFormedEnc cs
      ∧ ∀ i, i ≤ k → byteAt cs i &&& 0x7F = c i &&& 0x7F := by
  have hbyte : ∀ i, i ≤ k →
      byteAt ((List.range (k + 1)).map
        (fun i => (Fin.ofNat (if i < k then 128 + c i else c i) : Byte))) i
        = if i < k then 128 + c i else c i := by
    intro i hi
    unfold byteAt
    rw [getD_map_range _ (k + 1) i 0 (by omega)]
    have := hc i
    show (if i < k then 128 + c i else c i) % 256 = _
    apply Nat.mod_eq_of_lt
    split <;> omega
  refine ⟨(List.range (k + 1)).map
    (fun i => (Fin.ofNat (if i < k then 128 + c i else c i) : Byte)), by simp, ⟨?_, ?_, ?_⟩, ?_⟩
  · intro h
    have := congrArg List.length h
    simp at this
  · intro i hi
    simp only [List.length_map, List.length_range, Nat.add_sub_cancel] at hi
    rw [hbyte i (by omega), if_pos hi, (digit_bits (c i) (hc i)).2.2.2]
    decide
  · simp only [List.length_map, List.length_range, Nat.add_sub_cancel]
    rw [hbyte k (le_refl _), if_neg (by omega)]
    exact (digit_bits (c k) (hc k)).2.1
  · intro i hi
    rw [hbyte i hi]
    by_cases hik : i < k
    · rw [if_pos hik, (digit_bits (c i) (hc i)).2.2.1, (digit_bits (c i) (hc i)).1]
    · rw [if_neg hik]

/-- C13: the decoding of the negative offset in `readObjectBytes` is reversible: two
well-formed encodings (every byte but the last with bit 7 set, the last with bit 7 clear)
that are distinct, of equal or of different lengths, with values below `2^63`, decode to
different values; and every natural number below `2^63` is what the loop decodes from some
well-formed encoding. -/
theorem negOffset_reversible :
    (∀ cs ds : List Byte, WellFormedEnc cs → WellFormedEnc ds →
        negOffsetFormula (byteAt cs) (cs.length - 1) < 2 ^ 63 →
        negOffsetFormula (byteAt ds) (ds.length - 1) < 2 ^ 63 → cs ≠ ds →
        ∃ v w, negOffsetDecode cs 0 = .ret (v, cs.length - 1)
          ∧ negOffsetDecode ds 0 = .ret (w, ds.length - 1) ∧ v ≠ w)
      ∧ (∀ n, n < 2 ^ 63 →
          ∃ cs : List Byte, WellFormedEnc cs ∧ negOffsetDecode cs 0 = .ret (n, cs.length - 1)) := by
  constructor
  · intro cs ds hc hd hfc hfd hne
    rw [← negOffsetRec_eq_formula] at hfc hfd
    refine ⟨_, _, negOffsetDecode_wellFormed cs hc (by omega),
      negOffsetDecode_wellFormed ds hd (by omega), ?_⟩
    intro heq
    obtain ⟨hlen, hdig⟩ := negOffsetRec_inj _ _ _ _ heq
    have hpc : 0 < cs.length := List.length_pos.2 hc.1
    have hpd : 0 < ds.length := List.length_pos.2 hd.1
    exact hne (wellFormed_eq_of_digits cs ds hc hd (by omega) hdig)
  · intro n hn
    obtain ⟨k, c, hc, hval⟩ := negOffsetRec_surj n
    obtain ⟨cs, hlen, hwf, hdig⟩ := encoding_of_digits k c hc
    refine ⟨cs, hwf, ?_⟩
    have hrec : negOffsetRec (byteAt cs) (cs.length - 1) = n := by
      rw [hlen, Nat.add_sub_cancel, ← hval]
      exact negOffsetRec_congr _ _ k hdig
    rw [negOffsetDecode_wellFormed cs hwf (by rw [hrec]; omega), hrec]

/-- C13, at the encodings `0x00` (one byte, value 0) and `0x80 0x00` (two bytes, value 128),
which differ only by the bias of the continuation. -/
theorem negOffset_reversible_witness :
    (WellFormedEnc [0x00] ∧ WellFormedEnc [0x80, 0x00]
      ∧ negOffsetFormula (byteAt [0x00]) (([0x00] : List Byte).length - 1) < 2 ^ 63
      ∧ negOffsetFormula (byteAt [0x80, 0x00]) (([0x80, 0x00] : List Byte).length - 1) < 2 ^ 63
      ∧ ([0x00] : List Byte) ≠ [0x80, 0x00])
    ∧ negOffsetDecode [0x00] 0 = .ret (0, 0)
    ∧ negOffsetDecode [0x80, 0x00] 0 = .ret (128, 1)
    ∧ ∃ v w, negOffsetDecode [0x00] 0 = .ret (v, ([0x00] : List Byte).length - 1)
        ∧ negOffsetDecode [0x80, 0x00] 0 = .ret (w, ([0x80, 0x00] : List Byte).length - 1)
        ∧ v ≠ w :=
  ⟨⟨by decide, by decide, by decide, by decide, by decide⟩, by decide, by decide,
    negOffset_reversible.1 [0x00] [0x80, 0x00] (by decide) (by decide) (by decide) (by decide)
      (by decide)⟩

end Git
